import Mathlib

/-!
Verification development for the To Serve Man cookbook system.

This file gives a shallow embedding, over `List Char`, of the recipe-markup
parsing core of the repository:

* the Cooklang-style annotation resolution and ingredient extraction performed
  by `PDFGenerator.parse_recipe_content` (src/pdf_generator.py),
* the parallel implementation in `SiteGenerator.parse_recipe_content`
  (src/site_generator.py),
* the metadata extraction, `Recipe` entity, validation, and collection loading
  of src/recipe_parser.py.

Python regular expressions are embedded as deterministic character scanners.
Each scanner was derived by hand from the concrete pattern's backtracking
behaviour (all patterns used by the sources are deterministic after greedy
run analysis, since every character class involved excludes the delimiter
that must follow it).  Recursions that advance by more than one character per
step take an explicit fuel argument; callers pass the input length, which is
always sufficient because each step consumes at least one character.
`\w` and `\s` are modelled at ASCII granularity.
-/

/-! ### Character classes and basic string utilities -/

/-- ASCII model of the regex class `\s` (Python `str.strip` whitespace). -/
def isSpaceChar (c : Char) : Bool :=
  c == ' ' || c == '\t' || c == '\n' || c == '\r' || c == '\x0b' || c == '\x0c'

/-- ASCII model of the regex class `\w`. -/
def isWordChar (c : Char) : Bool := c.isAlphanum || c == '_'

/-- Character class `[^{@#~]` of the PDF ingredient-extraction pattern. -/
def pdfNameChar (c : Char) : Bool :=
  !(c == '\x7b' || c == '@' || c == '#' || c == '~')

/-- Character class `[^{@#~\s]` of the site ingredient-extraction pattern. -/
def siteNameChar (c : Char) : Bool := pdfNameChar c && !isSpaceChar c

/-- Model of `'%'.replace('%', ' ')` on a single character. -/
def pctToSpace (c : Char) : Char := if c = '%' then ' ' else c

/-- Python `str.strip()`: drop whitespace from both ends. -/
def pstrip (l : List Char) : List Char :=
  ((l.dropWhile isSpaceChar).reverse.dropWhile isSpaceChar).reverse

/-- Python `str.split('\n')`. -/
def splitNl : List Char → List (List Char)
  | [] => [[]]
  | c :: t =>
    if c = '\n' then [] :: splitNl t
    else
      match splitNl t with
      | [] => [[c]]
      | h :: r => (c :: h) :: r

/-- Model of `content.strip().split('\n')` followed by the per-line `line.strip()`
performed at the top of both parse loops. -/
def bodyLines (content : List Char) : List (List Char) :=
  (splitNl (pstrip content)).map pstrip

/-- Model of `line.startswith('--')` (comment line). -/
def isCommentLine (l : List Char) : Bool :=
  match l with
  | '-' :: '-' :: _ => true
  | _ => false

/-- Model of `line.startswith('>>')` (section-marker line). -/
def isSectionLine (l : List Char) : Bool :=
  match l with
  | '>' :: '>' :: _ => true
  | _ => false

/-- A stripped line that both parse loops treat as an instruction step:
nonempty, not a comment, not a section marker. -/
def isStepLine (l : List Char) : Bool :=
  !l.isEmpty && !isCommentLine l && !isSectionLine l

/-! ### Resolution pass of `PDFGenerator.parse_recipe_content`

The pass applies, in order:
`re.sub(r'@(\w+(?:\s+\w+)*)(?:\{[^}]*\})?', r'\1', _)`,
`re.sub(r'#(\w+)(?:\{[^}]*\})?', r'\1', _)`,
`re.sub(r'~\{([^}]+)\}', clean_timer, _)`,
`re.sub(r'\{\}', '', _)`, and
`re.sub(r'[@#~]\s*', '', _)`.
-/

/-- The optional group `(?:\{[^}]*\})?`: consume a balanced single-level brace
pair if one starts here, otherwise consume nothing. -/
def skipBraces (l : List Char) : List Char :=
  match l with
  | '\x7b' :: t =>
    (let q := t.takeWhile (fun d => !(d == '\x7d'))
     match t.drop q.length with
     | '\x7d' :: u => u
     | _ => l)
  | _ => l

/-- Greedy `(?:\s+\w+)*`: returns the consumed extension and the rest. -/
def nameSpans (fuel : Nat) (l : List Char) : List Char × List Char :=
  match fuel with
  | 0 => ([], l)
  | fuel + 1 =>
    let sp := l.takeWhile isSpaceChar
    let r := l.drop sp.length
    let w := r.takeWhile isWordChar
    if sp.isEmpty || w.isEmpty then ([], l)
    else
      let p := nameSpans fuel (r.drop w.length)
      (sp ++ w ++ p.1, p.2)

/-- Greedy `\w+(?:\s+\w+)*` applied right after an `@`. -/
def matchIngName (l : List Char) : Option (List Char × List Char) :=
  let w := l.takeWhile isWordChar
  if w.isEmpty then none
  else
    let r := l.drop w.length
    let p := nameSpans r.length r
    some (w ++ p.1, p.2)

/-- Model of `re.sub(r'@(\w+(?:\s+\w+)*)(?:\{[^}]*\})?', r'\1', line)`. -/
def subIngName (fuel : Nat) (l : List Char) : List Char :=
  match fuel, l with
  | 0, l => l
  | _ + 1, [] => []
  | fuel + 1, c :: rest =>
    if c = '@' then
      match matchIngName rest with
      | some p => p.1 ++ subIngName fuel (skipBraces p.2)
      | none => c :: subIngName fuel rest
    else c :: subIngName fuel rest

/-- Model of `re.sub(r'#(\w+)(?:\{[^}]*\})?', r'\1', line)`. -/
def subCookware (fuel : Nat) (l : List Char) : List Char :=
  match fuel, l with
  | 0, l => l
  | _ + 1, [] => []
  | fuel + 1, c :: rest =>
    if c = '#' then
      (let w := rest.takeWhile isWordChar
       if w.isEmpty then c :: subCookware fuel rest
       else w ++ subCookware fuel (skipBraces (rest.drop w.length)))
    else c :: subCookware fuel rest

/-- Model of `re.sub(r'~\{([^}]+)\}', clean_timer, line)` where `clean_timer`
replaces `%` by a space inside the captured time. -/
def subTimer (fuel : Nat) (l : List Char) : List Char :=
  match fuel, l with
  | 0, l => l
  | _ + 1, [] => []
  | fuel + 1, c :: rest =>
    if c = '~' then
      match rest with
      | '\x7b' :: t =>
        (let q := t.takeWhile (fun d => !(d == '\x7d'))
         if q.isEmpty then c :: subTimer fuel rest
         else
           match t.drop q.length with
           | '\x7d' :: u => q.map pctToSpace ++ subTimer fuel u
           | _ => c :: subTimer fuel rest)
      | _ => c :: subTimer fuel rest
    else c :: subTimer fuel rest

/-- Model of `re.sub(r'\{\}', '', line)`. -/
def subEmptyBraces (fuel : Nat) (l : List Char) : List Char :=
  match fuel, l with
  | 0, l => l
  | _ + 1, [] => []
  | fuel + 1, c :: rest =>
    match c, rest with
    | '\x7b', '\x7d' :: u => subEmptyBraces fuel u
    | _, _ => c :: subEmptyBraces fuel rest

/-- Model of `re.sub(r'[@#~]\s*', '', line)` (orphaned-marker removal). -/
def subMarkers (fuel : Nat) (l : List Char) : List Char :=
  match fuel, l with
  | 0, l => l
  | _ + 1, [] => []
  | fuel + 1, c :: rest =>
    if c = '@' ∨ c = '#' ∨ c = '~' then subMarkers fuel (rest.dropWhile isSpaceChar)
    else c :: subMarkers fuel rest

/-- The full resolution pass of `PDFGenerator.parse_recipe_content`
(lines 107-124), before the final `escape_latex` call. -/
def pdfResolveLine (l : List Char) : List Char :=
  let a := subIngName l.length l
  let b := subCookware a.length a
  let c := subTimer b.length b
  let d := subEmptyBraces c.length c
  subMarkers d.length d

/-! ### Ingredient extraction

PDF side: `re.finditer(r'@([^{@#~]+)\{([^}]*)\}', line)`.
Site side: `re.finditer(r'@([^{@#~\s]+(?:\s+[^{@#~\s]+)*)\{([^}]*)\}', line)`.
Both return the list of raw `(name, quantity)` captures in document order.
-/

/-- Try the PDF ingredient pattern right after an `@`; on success return the
captures and the rest of the line after the match. -/
def pdfIngTry (l : List Char) : Option ((List Char × List Char) × List Char) :=
  let n := l.takeWhile pdfNameChar
  if n.isEmpty then none
  else
    match l.drop n.length with
    | '\x7b' :: t =>
      (let q := t.takeWhile (fun d => !(d == '\x7d'))
       match t.drop q.length with
       | '\x7d' :: u => some ((n, q), u)
       | _ => none)
    | _ => none

/-- All matches of the PDF ingredient pattern in a line (`re.finditer`,
leftmost, non-overlapping). -/
def pdfIngAux (fuel : Nat) (l : List Char) : List (List Char × List Char) :=
  match fuel, l with
  | 0, _ => []
  | _ + 1, [] => []
  | fuel + 1, c :: rest =>
    if c = '@' then
      match pdfIngTry rest with
      | some m => m.1 :: pdfIngAux fuel m.2
      | none => pdfIngAux fuel rest
    else pdfIngAux fuel rest

/-- Greedy `(?:\s+[^{@#~\s]+)*` of the site pattern. -/
def siteSpans (fuel : Nat) (l : List Char) : List Char × List Char :=
  match fuel with
  | 0 => ([], l)
  | fuel + 1 =>
    let sp := l.takeWhile isSpaceChar
    let r := l.drop sp.length
    let w := r.takeWhile siteNameChar
    if sp.isEmpty || w.isEmpty then ([], l)
    else
      let p := siteSpans fuel (r.drop w.length)
      (sp ++ w ++ p.1, p.2)

/-- Try the site ingredient pattern right after an `@`.  The mandatory `\{`
must follow the maximal greedy name (no shorter star iteration can expose a
`{`, since the name class excludes `{` and a rep boundary sits on whitespace). -/
def siteIngTry (l : List Char) : Option ((List Char × List Char) × List Char) :=
  let w := l.takeWhile siteNameChar
  if w.isEmpty then none
  else
    let r := l.drop w.length
    let p := siteSpans r.length r
    match p.2 with
    | '\x7b' :: t =>
      (let q := t.takeWhile (fun d => !(d == '\x7d'))
       match t.drop q.length with
       | '\x7d' :: u => some ((w ++ p.1, q), u)
       | _ => none)
    | _ => none

/-- All matches of the site ingredient pattern in a line. -/
def siteIngAux (fuel : Nat) (l : List Char) : List (List Char × List Char) :=
  match fuel, l with
  | 0, _ => []
  | _ + 1, [] => []
  | fuel + 1, c :: rest =>
    if c = '@' then
      match siteIngTry rest with
      | some m => m.1 :: siteIngAux fuel m.2
      | none => siteIngAux fuel rest
    else siteIngAux fuel rest

/-! ### Ingredient registries -/

def toLowerList (l : List Char) : List Char := l.map Char.toLower

/-- The PDF deduplication key: `ing_name.strip().lower()`. -/
def ingKey (n : List Char) : List Char := toLowerList (pstrip n)

/-- Display text: `f"{name} ({qty.replace('%',' ')})"` when the stripped
quantity is nonempty, else just the stripped name (both generators build
exactly this string). -/
def mkDisplay (n q : List Char) : List Char :=
  let name := pstrip n
  let qty := pstrip q
  if qty.isEmpty then name
  else name ++ (' ' :: '(' :: qty.map pctToSpace) ++ [')']

/-- One step of the PDF `ingredients_dict` update: insert if the lowercased
stripped name is not yet a key (first occurrence wins, insertion-ordered). -/
def insertIng (d : List (List Char × List Char)) (m : List Char × List Char) :
    List (List Char × List Char) :=
  if d.any (fun e => e.1 == ingKey m.1) then d
  else d ++ [(ingKey m.1, mkDisplay m.1 m.2)]

/-- Model of `re.sub(r'\([^)]*\)', '', ing)` used by the site generator to build its
deduplication key. -/
def removeParens (fuel : Nat) (l : List Char) : List Char :=
  match fuel, l with
  | 0, l => l
  | _ + 1, [] => []
  | fuel + 1, c :: t =>
    if c = '(' then
      (let q := t.takeWhile (fun d => !(d == ')'))
       match t.drop q.length with
       | ')' :: u => removeParens fuel u
       | _ => c :: removeParens fuel t)
    else c :: removeParens fuel t

/-- Site deduplication key: parenthesised spans removed, stripped, lowercased. -/
def baseKey (ing : List Char) : List Char :=
  toLowerList (pstrip (removeParens ing.length ing))

/-- Site order-preserving dedup over display strings (`seen` set of base keys,
first occurrence kept). -/
def dedupFirst (seen : List (List Char)) : List (List Char) → List (List Char)
  | [] => []
  | i :: t =>
    if seen.contains (baseKey i) then dedupFirst seen t
    else i :: dedupFirst (seen ++ [baseKey i]) t

/-! ### Per-document parsing loops -/

/-- An entry of the `instructions` list built by the PDF parser:
`('section', name)` or `('step', text)`. -/
inductive Item where
  | sec (title : List Char)
  | step (text : List Char)
deriving DecidableEq

/-- The loop body of `PDFGenerator.parse_recipe_content` (lines 79-129):
skip blank and comment lines, turn `>>` lines into section items, and for
instruction lines register ingredient matches and emit the resolved step.
The final `escape_latex` of each step is omitted; all claims below quote the
pre-escaping text, which the spec calls the typesetting-agnostic step text. -/
def pdfParseAux (d : List (List Char × List Char)) (ins : List Item) :
    List (List Char) → List (List Char × List Char) × List Item
  | [] => (d, ins)
  | l :: rest =>
    if l.isEmpty || isCommentLine l then pdfParseAux d ins rest
    else if isSectionLine l then
      pdfParseAux d (ins ++ [Item.sec (pstrip (l.drop 2))]) rest
    else
      pdfParseAux ((pdfIngAux l.length l).foldl insertIng d)
        (ins ++ [Item.step (pdfResolveLine l)]) rest

/-- Model of `(ingredients, instructions)` of the PDF parser, at the level of stripped
body lines (ingredients are the dict values, before LaTeX escaping). -/
def pdfParseLines (lines : List (List Char)) :
    List (List Char) × List Item :=
  let p := pdfParseAux [] [] lines
  (p.1.map (fun e => e.2), p.2)

def pdfIngredientsOfLines (lines : List (List Char)) : List (List Char) :=
  (pdfParseLines lines).1

def pdfInstructionsOfLines (lines : List (List Char)) : List Item :=
  (pdfParseLines lines).2

/-- The raw `ingredients_dict` (key/display pairs in insertion order). -/
def pdfRegistryOfLines (lines : List (List Char)) :
    List (List Char × List Char) :=
  (pdfParseAux [] [] lines).1

/-- The ingredient-collection part of `SiteGenerator.parse_recipe_content`
(lines 109-170): the same line classification, appending one display string
per ingredient match. -/
def siteParseAux (acc : List (List Char)) : List (List Char) → List (List Char)
  | [] => acc
  | l :: rest =>
    if l.isEmpty || isCommentLine l then siteParseAux acc rest
    else if isSectionLine l then siteParseAux acc rest
    else
      siteParseAux (acc ++ (siteIngAux l.length l).map (fun m => mkDisplay m.1 m.2)) rest

/-- Model of `unique_ingredients` of the site generator (lines 172-180). -/
def siteIngredientsOfLines (lines : List (List Char)) : List (List Char) :=
  dedupFirst [] (siteParseAux [] lines)

def pdfIngredientsOf (content : List Char) : List (List Char) :=
  pdfIngredientsOfLines (bodyLines content)

def siteIngredientsOf (content : List Char) : List (List Char) :=
  siteIngredientsOfLines (bodyLines content)

/-! ### Section grouping (`PDFGenerator.format_recipe_latex`, lines 199-221;
the site generator's instruction grouping at lines 185-211 is the same loop) -/

/-- A rendered output block: a section header or one enumerated run of steps. -/
inductive Block where
  | header (title : List Char)
  | enum (steps : List (List Char))
deriving DecidableEq

/-- The grouping fold: steps accumulate; a section item flushes the pending
accumulator (if nonempty) as an enumerated block before emitting its header;
a final nonempty accumulator is flushed at the end. -/
def groupBlocksAux (cur : List (List Char)) : List Item → List Block
  | [] => if cur.isEmpty then [] else [Block.enum cur]
  | Item.sec t :: rest =>
    (if cur.isEmpty then [] else [Block.enum cur]) ++ Block.header t :: groupBlocksAux [] rest
  | Item.step s :: rest => groupBlocksAux (cur ++ [s]) rest

def groupBlocks (items : List Item) : List Block := groupBlocksAux [] items

/-! ### Canonical annotation form (used to state the amended C3) -/

/-- A line is canonical when every `@` is immediately followed by a nonempty
alphanumeric name, then `{quantity}` where the quantity contains no `)`.
On canonical lines the two generators' ingredient patterns coincide. -/
def canonLine (fuel : Nat) (l : List Char) : Bool :=
  match fuel, l with
  | 0, _ => true
  | _ + 1, [] => true
  | fuel + 1, c :: rest =>
    if c = '@' then
      (let w := rest.takeWhile Char.isAlphanum
       if w.isEmpty then false
       else
         match rest.drop w.length with
         | '\x7b' :: t =>
           (let q := t.takeWhile (fun d => !(d == '\x7d'))
            if q.all (fun d => !(d == ')')) then
              match t.drop q.length with
              | '\x7d' :: u => canonLine fuel u
              | _ => false
            else false)
         | _ => false)
    else canonLine fuel rest

/-! ### Metadata values and typed accessors (src/recipe_parser.py) -/

/-- A scalar or string-list value in the YAML frontmatter mapping (the value
shapes the typed accessors distinguish; Python truthiness and `int()`
coercion are modelled per constructor). -/
inductive MValue where
  | str (s : List Char)
  | int (n : Int)
  | bool (b : Bool)
  | list (xs : List (List Char))
  | null
deriving DecidableEq

/-- The metadata mapping extracted from the frontmatter. -/
abbrev Metadata := List (List Char × MValue)

/-- Model of `dict.get` on the metadata mapping. -/
def lookupMeta : Metadata → List Char → Option MValue
  | [], _ => none
  | e :: t, k => if e.1 = k then some e.2 else lookupMeta t k

/-- Python truthiness of a metadata value. -/
def truthy : MValue → Bool
  | MValue.str s => !s.isEmpty
  | MValue.int n => !(n == 0)
  | MValue.bool b => b
  | MValue.null => false
  | MValue.list xs => !xs.isEmpty

/-- Truthiness of `metadata.get(key)` (absent key is `None`, falsy). -/
def optTruthy : Option MValue → Bool
  | none => false
  | some v => truthy v

def digitsVal (ds : List Char) : Option Nat :=
  if ds.isEmpty then none
  else if ds.all Char.isDigit then
    some (ds.foldl (fun n c => n * 10 + (c.toNat - 48)) 0)
  else none

/-- Python `int(s)` on a stripped string: optional sign, then digits. -/
def pyIntStr (s : List Char) : Option Int :=
  match s with
  | '-' :: ds => (digitsVal ds).map (fun n => -(n : Int))
  | '+' :: ds => (digitsVal ds).map (fun n => (n : Int))
  | ds => (digitsVal ds).map (fun n => (n : Int))

/-- Python `int(value)`: succeeds on ints, bools and integer-shaped strings;
raises (modelled as `none`, caught by the accessor) otherwise. -/
def pyInt : MValue → Option Int
  | MValue.int n => some n
  | MValue.bool b => some (if b then 1 else 0)
  | MValue.str s => pyIntStr (pstrip s)
  | MValue.list _ => none
  | MValue.null => none

/-! ### Frontmatter extraction (`Recipe._extract_metadata`)

`re.match(r'^---\s*\n(.*?)\n---\s*\n', raw, re.DOTALL)`.  The greedy `\s*\n`
consumes a whitespace run up to its last newline (backtracking earlier
newlines of the opening run if the rest of the pattern cannot match); the
lazy group stops at the first closing `\n---\s*\n`. -/

/-- Model of `\s*\n` on `l`, greedy: consume the maximal whitespace run up to its
last newline; fails when the run contains no newline. -/
def afterWsNl (l : List Char) : Option (List Char) :=
  let w := l.takeWhile isSpaceChar
  if w.contains '\n' then
    some ((w.reverse.takeWhile (fun c => !(c == '\n'))).reverse ++ l.drop w.length)
  else none

/-- Suffixes of `w` following each of its newlines, in first-to-last order. -/
def nlSuffixesF : List Char → List (List Char)
  | [] => []
  | c :: t => if c = '\n' then t :: nlSuffixesF t else nlSuffixesF t

/-- The lazy `(.*?)\n---\s*\n`: the shortest body followed by a closing
delimiter line. -/
def fmBody (fuel : Nat) (l : List Char) : Option (List Char × List Char) :=
  match fuel, l with
  | 0, _ => none
  | _ + 1, [] => none
  | fuel + 1, c :: t =>
    match c, t with
    | '\n', '-' :: '-' :: '-' :: r =>
      (match afterWsNl r with
       | some rest => some ([], rest)
       | none => (fmBody fuel t).map (fun p => (c :: p.1, p.2)))
    | _, _ => (fmBody fuel t).map (fun p => (c :: p.1, p.2))

/-- Candidate starts for the body, one per newline of the opening whitespace
run, preferred greedily (last newline first). -/
def fmCandidates (r : List Char) : List (List Char) :=
  let w := r.takeWhile isSpaceChar
  ((nlSuffixesF w).reverse).map (fun s => s ++ r.drop w.length)

def fmFirst : List (List Char) → Option (List Char × List Char)
  | [] => none
  | cand :: t =>
    match fmBody cand.length cand with
    | some p => some p
    | none => fmFirst t

/-- The full frontmatter match: returns `(group 1, rest after the match)`. -/
def extractFM (raw : List Char) : Option (List Char × List Char) :=
  match raw with
  | '-' :: '-' :: '-' :: r => fmFirst (fmCandidates r)
  | _ => none

/-- Model of `Recipe._extract_metadata`: parse the frontmatter with the (third-party)
YAML parser `yamlParse`, wrapping its failure in the `ValueError` raised by
the method; no frontmatter yields the empty mapping. -/
def extractMetadata (yamlParse : List Char → Except (List Char) Metadata)
    (raw : List Char) : Except (List Char) Metadata :=
  match extractFM raw with
  | some p =>
    (match yamlParse p.1 with
     | Except.ok m => Except.ok m
     | Except.error e => Except.error (("Invalid YAML frontmatter: ").toList ++ e))
  | none => Except.ok []

/-! ### Recipe entity -/

/-- Substring test (Python `'cocktails' in str(filepath)`). -/
def isSubstr (n : List Char) : List Char → Bool
  | [] => n.isEmpty
  | c :: t => n.isPrefixOf (c :: t) || isSubstr n t

/-- Model of `self.metadata.get('type') == 'cocktail'`. -/
def typeIsCocktail (meta : Metadata) : Bool :=
  match lookupMeta meta (("type").toList) with
  | some (MValue.str s) => s == ("cocktail").toList
  | _ => false

/-- The derived classification flag of `Recipe.__init__` (line 27). -/
def isCocktailOf (meta : Metadata) (path : List Char) : Bool :=
  typeIsCocktail meta || isSubstr (("cocktails").toList) path

/-- Maximal alphanumeric groups of a string, lowercased (model of the
`slugify` library's word splitting). -/
def slugGroups (l : List Char) : List (List Char) :=
  l.foldr
    (fun c acc =>
      if c.isAlphanum then
        match acc with
        | [] => [[c.toLower]]
        | g :: t => (c.toLower :: g) :: t
      else [] :: acc)
    []

/-- Model of the third-party `slugify`: lowercased alphanumeric words joined
by single hyphens. -/
def slugify (l : List Char) : List Char :=
  List.intercalate ['-'] ((slugGroups l).filter (fun g => !g.isEmpty))

/-- Last path component (`Path.name`). -/
def lastComp (path : List Char) : List Char :=
  (path.reverse.takeWhile (fun c => !(c == '/'))).reverse

/-- Model of `Path.stem`: the last component without its final extension. -/
def stemOf (path : List Char) : List Char :=
  let nm := lastComp path
  let ext := nm.reverse.takeWhile (fun c => !(c == '.'))
  if ext.length + 1 < nm.length then nm.take (nm.length - ext.length - 1) else nm

/-- Model of `Path.parent.name` (`Recipe._determine_category`). -/
def parentName (path : List Char) : List Char :=
  match path.reverse.dropWhile (fun c => !(c == '/')) with
  | [] => []
  | _ :: r => (r.takeWhile (fun c => !(c == '/'))).reverse

/-- Python `str()` of a metadata value (used when a non-string title reaches
`slugify`, which stringifies its argument). -/
def pyStr : MValue → List Char
  | MValue.str s => s
  | MValue.int n => (toString n).toList
  | MValue.bool b => if b then ("True").toList else ("False").toList
  | MValue.null => ("None").toList
  | MValue.list xs =>
    '[' :: (List.intercalate (", ").toList
      (xs.map (fun s => '\x27' :: (s ++ ['\x27'])))) ++ [']']

/-- Model of `self.metadata.get('title', filepath.stem)` fed to `slugify`. -/
def slugSource (meta : Metadata) (path : List Char) : List Char :=
  match lookupMeta meta (("title").toList) with
  | some v => pyStr v
  | none => stemOf path

/-- A parsed recipe: the attributes computed by `Recipe.__init__`. -/
structure Recipe where
  filepath : List Char
  parsedData : Metadata
  rawContent : List Char
  metadata : Metadata
  is_cocktail : Bool
  slug : List Char
  category : List Char
deriving DecidableEq

/-- Model of `Recipe.__init__`: fails exactly when `_extract_metadata` raises. -/
def mkRecipe (yamlParse : List Char → Except (List Char) Metadata)
    (filepath : List Char) (parsedData : Metadata) (raw : List Char) :
    Except (List Char) Recipe :=
  match extractMetadata yamlParse raw with
  | Except.error e => Except.error e
  | Except.ok meta =>
    Except.ok
      { filepath := filepath
        parsedData := parsedData
        rawContent := raw
        metadata := meta
        is_cocktail := isCocktailOf meta filepath
        slug := slugify (slugSource meta filepath)
        category := parentName filepath }

/-- Model of `Recipe.title` (default `'Untitled Recipe'`). -/
def Recipe.titleV (r : Recipe) : MValue :=
  (lookupMeta r.metadata (("title").toList)).getD (MValue.str (("Untitled Recipe").toList))

def Recipe.descriptionV (r : Recipe) : Option MValue :=
  lookupMeta r.metadata (("description").toList)

/-- Model of `Recipe.tags` (default empty list). -/
def Recipe.tagsV (r : Recipe) : MValue :=
  (lookupMeta r.metadata (("tags").toList)).getD (MValue.list [])

def Recipe.cuisineV (r : Recipe) : Option MValue :=
  lookupMeta r.metadata (("cuisine").toList)

def Recipe.spiritBaseV (r : Recipe) : Option MValue :=
  lookupMeta r.metadata (("spirit_base").toList)

def Recipe.glassV (r : Recipe) : Option MValue :=
  lookupMeta r.metadata (("glass").toList)

def Recipe.garnishV (r : Recipe) : Option MValue :=
  lookupMeta r.metadata (("garnish").toList)

def Recipe.difficultyV (r : Recipe) : Option MValue :=
  lookupMeta r.metadata (("difficulty").toList)

def Recipe.prepTimeV (r : Recipe) : Option MValue :=
  lookupMeta r.metadata (("prep_time").toList)

def Recipe.cookTimeV (r : Recipe) : Option MValue :=
  lookupMeta r.metadata (("cook_time").toList)

/-- Model of `Recipe.servings`: truthy values are coerced with `int()`; a coercion
failure is caught and yields `None`. -/
def Recipe.servingsV (r : Recipe) : Option Int :=
  match lookupMeta r.metadata (("servings").toList) with
  | none => none
  | some v => if truthy v then pyInt v else none

/-! ### Validation (`Recipe.validate`, lines 112-137) -/

def msgMissingTitle (p : List Char) : List Char :=
  p ++ (": Missing required field \x27title\x27").toList

def msgSpirit (p : List Char) : List Char :=
  p ++ (": Cocktail recipes should have \x27spirit_base\x27").toList

def msgGlass (p : List Char) : List Char :=
  p ++ (": Cocktail recipes should have \x27glass\x27").toList

def msgCuisine (p : List Char) : List Char :=
  p ++ (": Food recipes should have \x27cuisine\x27").toList

/-- Model of `Recipe.validate`: a total function returning the ordered error list
(validation never throws). -/
def Recipe.validate (r : Recipe) : List (List Char) :=
  (if !truthy r.titleV || r.titleV == MValue.str (("Untitled Recipe").toList) then
     [msgMissingTitle r.filepath]
   else []) ++
  (if r.is_cocktail then
     (if !optTruthy r.spiritBaseV then [msgSpirit r.filepath] else []) ++
     (if !optTruthy r.glassV then [msgGlass r.filepath] else [])
   else
     (if !optTruthy r.cuisineV then [msgCuisine r.filepath] else []))

/-! ### Collection loading (`RecipeCollection.load_recipes`, lines 155-190) -/

/-- A discovered document: its path and the outcome of reading it (an
unreadable file is an exception, caught by the loop). -/
structure DocFile where
  path : List Char
  readResult : Except (List Char) (List Char)

/-- The per-file warning printed by the `except` branch. -/
def loadWarn (f : DocFile) (e : List Char) : List Char :=
  ("Error loading recipe ").toList ++ f.path ++ (": ").toList ++ e

/-- The body of the `try` block for one file (with
`use_cooklang_parser=False`, so `parsed_data = {}`). -/
def loadOne (yamlParse : List Char → Except (List Char) Metadata)
    (f : DocFile) : Except (List Char) Recipe :=
  match f.readResult with
  | Except.error e => Except.error e
  | Except.ok raw => mkRecipe yamlParse f.path [] raw

/-- One iteration of the load loop: append the recipe on success, append a
warning on failure. -/
def loadStep (yamlParse : List Char → Except (List Char) Metadata)
    (acc : List Recipe × List (List Char)) (f : DocFile) :
    List Recipe × List (List Char) :=
  match loadOne yamlParse f with
  | Except.ok r => (acc.1 ++ [r], acc.2)
  | Except.error e => (acc.1, acc.2 ++ [loadWarn f e])

/-- Model of `load_recipes`: recipes collected and warnings printed, in order. -/
def loadRecipes (yamlParse : List Char → Except (List Char) Metadata)
    (files : List DocFile) : List Recipe × List (List Char) :=
  files.foldl (loadStep yamlParse) ([], [])

/-- The error side of one load iteration (the warning it would print). -/
def loadErr (yamlParse : List Char → Except (List Char) Metadata)
    (f : DocFile) : Option (List Char) :=
  match loadOne yamlParse f with
  | Except.ok _ => none
  | Except.error e => some (loadWarn f e)

/-! ### Derived views of the parse loops (used to state and prove claims) -/

/-- The instruction items produced by the PDF loop, line by line. -/
def itemsOfLines : List (List Char) → List Item
  | [] => []
  | l :: rest =>
    if l.isEmpty || isCommentLine l then itemsOfLines rest
    else if isSectionLine l then Item.sec (pstrip (l.drop 2)) :: itemsOfLines rest
    else Item.step (pdfResolveLine l) :: itemsOfLines rest

/-- All PDF ingredient matches of a document, in document order. -/
def ingMatchesOfLines : List (List Char) → List (List Char × List Char)
  | [] => []
  | l :: rest =>
    if l.isEmpty || isCommentLine l then ingMatchesOfLines rest
    else if isSectionLine l then ingMatchesOfLines rest
    else pdfIngAux l.length l ++ ingMatchesOfLines rest

/-- All site ingredient display strings of a document, in document order. -/
def displaysOfLines : List (List Char) → List (List Char)
  | [] => []
  | l :: rest =>
    if l.isEmpty || isCommentLine l then displaysOfLines rest
    else if isSectionLine l then displaysOfLines rest
    else (siteIngAux l.length l).map (fun m => mkDisplay m.1 m.2) ++ displaysOfLines rest

/-- A character that is neither an annotation marker nor a brace: text that
every pass of the resolution pipeline copies through unchanged. -/
def pdfPlain (c : Char) : Bool :=
  !(c == '@' || c == '#' || c == '~' || c == '\x7b' || c == '\x7d')

/-! ### Concrete fixtures for the closed instances below -/

def yamlOkEmpty : List Char → Except (List Char) Metadata := fun _ => Except.ok []

def yamlErrBoom : List Char → Except (List Char) Metadata :=
  fun _ => Except.error (("boom").toList)

/-- A cocktail-classified recipe whose metadata has no `glass` field. -/
def wCocktail : Recipe :=
  { filepath := ("recipes/cocktails/negroni.cook").toList
    parsedData := []
    rawContent := []
    metadata := [((("title").toList), MValue.str (("Negroni").toList)),
                 ((("type").toList), MValue.str (("cocktail").toList)),
                 ((("spirit_base").toList), MValue.str (("gin").toList))]
    is_cocktail := true
    slug := ("negroni").toList
    category := ("cocktails").toList }

/-- A recipe whose `servings` value is the non-coercible string `"four"`. -/
def wServings : Recipe :=
  { filepath := ("recipes/mains/soup.cook").toList
    parsedData := []
    rawContent := []
    metadata := [((("servings").toList), MValue.str (("four").toList))]
    is_cocktail := false
    slug := ("soup").toList
    category := ("mains").toList }

def wPath : List Char := ("recipes/mains/x.cook").toList

/-- The recipe `mkRecipe yamlOkEmpty wPath [] "hello"` constructs. -/
def wRec1 : Recipe :=
  { filepath := wPath
    parsedData := []
    rawContent := ("hello").toList
    metadata := []
    is_cocktail := isCocktailOf [] wPath
    slug := slugify (slugSource [] wPath)
    category := parentName wPath }

/-- The same construction fed a different (ignored) `parsed_data` payload. -/
def wRec2 : Recipe := { wRec1 with parsedData := [((("x").toList), MValue.null)] }

def wDocA : DocFile := { path := ("recipes/mains/a.cook").toList, readResult := Except.ok (("no header").toList) }

def wDocBad : DocFile :=
  { path := ("recipes/mains/b.cook").toList
    readResult := Except.ok (("---\nx: 1\n---\nbody").toList) }

def wDocC : DocFile := { path := ("recipes/mains/c.cook").toList, readResult := Except.ok (("hello").toList) }

def wPathCock : List Char := ("recipes/cocktails/negroni.cook").toList

/-- The recipe `mkRecipe yamlOkEmpty wPathCock [] "hello"` constructs. -/
def wRecCock : Recipe :=
  { filepath := wPathCock
    parsedData := []
    rawContent := ("hello").toList
    metadata := []
    is_cocktail := isCocktailOf [] wPathCock
    slug := slugify (slugSource [] wPathCock)
    category := parentName wPathCock }

/-! ## Helper lemmas -/

theorem drop_takeWhile_len {α : Type} (p : α → Bool) :
    ∀ l : List α, l.drop (l.takeWhile p).length = l.dropWhile p := by
  intro l
  induction l with
  | nil => rfl
  | cons a t ih =>
    cases h : p a with
    | true => simpa [List.takeWhile_cons, List.dropWhile_cons, h] using ih
    | false => simp [List.takeWhile_cons, List.dropWhile_cons, h]

theorem takeWhile_decomp {α : Type} (p : α → Bool) (l : List α) :
    l.takeWhile p ++ l.drop (l.takeWhile p).length = l := by
  rw [drop_takeWhile_len]
  exact List.takeWhile_append_dropWhile p l

theorem takeWhile_all_append {α : Type} {p : α → Bool} :
    ∀ (w : List α) {x : α} (r : List α), (∀ c ∈ w, p c = true) → p x = false →
      (w ++ x :: r).takeWhile p = w := by
  intro w
  induction w with
  | nil => intro x r _ hx; simp [List.takeWhile_cons, hx]
  | cons a t ih =>
    intro x r hall hx
    have ha : p a = true := hall a (by simp)
    simp [List.takeWhile_cons, ha,
      ih r (fun c hc => hall c (List.mem_cons_of_mem _ hc)) hx]

theorem dropWhile_all_false {α : Type} {p : α → Bool} :
    ∀ {l : List α}, (∀ c ∈ l, p c = false) → l.dropWhile p = l := by
  intro l h
  cases l with
  | nil => rfl
  | cons a t => simp [List.dropWhile_cons, h a (by simp)]

theorem pstrip_all_nonspace {l : List Char} (h : ∀ c ∈ l, isSpaceChar c = false) :
    pstrip l = l := by
  have h2 : ∀ c ∈ l.reverse, isSpaceChar c = false := fun c hc => h c (by simpa using hc)
  unfold pstrip
  rw [dropWhile_all_false h, dropWhile_all_false h2, List.reverse_reverse]

theorem append_ne_of_ne_right {p a b : List Char} (h : a ≠ b) : p ++ a ≠ p ++ b :=
  fun hh => h (List.append_cancel_left hh)

theorem msgTitle_ne_glass (p : List Char) : msgMissingTitle p ≠ msgGlass p := by
  unfold msgMissingTitle msgGlass
  exact append_ne_of_ne_right (by decide)

theorem msgSpirit_ne_glass (p : List Char) : msgSpirit p ≠ msgGlass p := by
  unfold msgSpirit msgGlass
  exact append_ne_of_ne_right (by decide)

theorem msgCuisine_ne_title (p : List Char) : msgCuisine p ≠ msgMissingTitle p := by
  unfold msgCuisine msgMissingTitle
  exact append_ne_of_ne_right (by decide)

theorem msgCuisine_ne_spirit (p : List Char) : msgCuisine p ≠ msgSpirit p := by
  unfold msgCuisine msgSpirit
  exact append_ne_of_ne_right (by decide)

theorem msgCuisine_ne_glass (p : List Char) : msgCuisine p ≠ msgGlass p := by
  unfold msgCuisine msgGlass
  exact append_ne_of_ne_right (by decide)

/-! ## Claims -/

/-- Claim C1: for the instruction line
`Add @flour{2%cups} and mix with #whisk for ~{30%seconds}` the PDF generator's
resolution pass produces exactly the plain step text
`Add flour and mix with whisk for 30 seconds`: the ingredient annotation is
replaced by its name, the cookware annotation by its item, and the timer
one by its time with `%` rendered as a space; no leftover braces or
markers remain. -/
theorem c1_resolution_roundtrip :
    pdfResolveLine (("Add @flour\x7b2%cups\x7d and mix with #whisk for ~\x7b30%seconds\x7d").toList)
      = ("Add flour and mix with whisk for 30 seconds").toList := by decide

/-- Claim C8: if the `servings` metadata value is absent, or present but not
integer-coercible, the `servings` accessor resolves to `none`; the accessor is
a total function, so it never raises. -/
theorem c8_servings_silent_absent (r : Recipe)
    (h : ∀ v, lookupMeta r.metadata (("servings").toList) = some v → pyInt v = none) :
    r.servingsV = none := by
  unfold Recipe.servingsV
  cases hv : lookupMeta r.metadata (("servings").toList) with
  | none => rfl
  | some v =>
    cases ht : truthy v with
    | false => simp [ht]
    | true => simp [ht, h v hv]

/-- Witness for C8: a recipe whose `servings` is the string `"four"`. -/
theorem c8_witness : wServings.servingsV = none := by
  apply c8_servings_silent_absent
  intro v hv
  have h0 : lookupMeta wServings.metadata (("servings").toList)
      = some (MValue.str (("four").toList)) := rfl
  rw [h0] at hv
  cases hv
  rfl

/-- Claim C9: `Recipe` construction is a pure function of the raw document
text and the document path: two constructions from identical raw text and
path (even with different `parsed_data` payloads, which no derived attribute
reads) agree on metadata, classification, slug, category, and every typed
accessor. -/
theorem c9_construction_pure (y : List Char → Except (List Char) Metadata)
    (p raw : List Char) (pd1 pd2 : Metadata) (r1 r2 : Recipe)
    (h1 : mkRecipe y p pd1 raw = Except.ok r1)
    (h2 : mkRecipe y p pd2 raw = Except.ok r2) :
    r1.filepath = r2.filepath ∧ r1.metadata = r2.metadata ∧
    r1.is_cocktail = r2.is_cocktail ∧ r1.slug = r2.slug ∧
    r1.category = r2.category ∧ r1.titleV = r2.titleV ∧ r1.tagsV = r2.tagsV ∧
    r1.cuisineV = r2.cuisineV ∧ r1.spiritBaseV = r2.spiritBaseV ∧
    r1.glassV = r2.glassV ∧ r1.garnishV = r2.garnishV ∧
    r1.difficultyV = r2.difficultyV ∧ r1.prepTimeV = r2.prepTimeV ∧
    r1.cookTimeV = r2.cookTimeV ∧ r1.descriptionV = r2.descriptionV ∧
    r1.servingsV = r2.servingsV := by
  unfold mkRecipe at h1 h2
  cases he : extractMetadata y raw with
  | error e => rw [he] at h1; cases h1
  | ok meta =>
    rw [he] at h1 h2
    cases h1
    cases h2
    exact ⟨rfl, rfl, rfl, rfl, rfl, rfl, rfl, rfl, rfl, rfl, rfl, rfl, rfl, rfl,
      rfl, rfl⟩

/-- Witness for C9: two constructions from the same text and path with
different `parsed_data` payloads. -/
theorem c9_witness :
    wRec1.filepath = wRec2.filepath ∧ wRec1.metadata = wRec2.metadata ∧
    wRec1.is_cocktail = wRec2.is_cocktail ∧ wRec1.slug = wRec2.slug ∧
    wRec1.category = wRec2.category ∧ wRec1.titleV = wRec2.titleV ∧
    wRec1.tagsV = wRec2.tagsV ∧ wRec1.cuisineV = wRec2.cuisineV ∧
    wRec1.spiritBaseV = wRec2.spiritBaseV ∧ wRec1.glassV = wRec2.glassV ∧
    wRec1.garnishV = wRec2.garnishV ∧ wRec1.difficultyV = wRec2.difficultyV ∧
    wRec1.prepTimeV = wRec2.prepTimeV ∧ wRec1.cookTimeV = wRec2.cookTimeV ∧
    wRec1.descriptionV = wRec2.descriptionV ∧ wRec1.servingsV = wRec2.servingsV :=
  c9_construction_pure yamlOkEmpty wPath (("hello").toList) []
    [((("x").toList), MValue.null)] wRec1 wRec2 rfl rfl

theorem typeIsCocktail_iff (meta : Metadata) :
    typeIsCocktail meta = true ↔
      lookupMeta meta (("type").toList) = some (MValue.str (("cocktail").toList)) := by
  unfold typeIsCocktail
  cases h : lookupMeta meta (("type").toList) with
  | none => simp
  | some v => cases v <;> simp

/-- Claim C7: the derived `is_cocktail` flag of a constructed recipe is true
iff the metadata declares type `cocktail` or the storage path contains the
`cocktails` grouping, combined as an OR. -/
theorem c7_is_cocktail_or (y : List Char → Except (List Char) Metadata)
    (p : List Char) (pd : Metadata) (raw : List Char) (r : Recipe)
    (h : mkRecipe y p pd raw = Except.ok r) :
    r.is_cocktail = true ↔
      (lookupMeta r.metadata (("type").toList) = some (MValue.str (("cocktail").toList)) ∨
       isSubstr (("cocktails").toList) r.filepath = true) := by
  unfold mkRecipe at h
  cases he : extractMetadata y raw with
  | error e => rw [he] at h; cases h
  | ok meta =>
    rw [he] at h
    cases h
    show isCocktailOf meta p = true ↔ _
    unfold isCocktailOf
    rw [Bool.or_eq_true, typeIsCocktail_iff]

/-- Witness for C7: a construction from a path under `cocktails/`. -/
theorem c7_witness :
    wRecCock.is_cocktail = true ↔
      (lookupMeta wRecCock.metadata (("type").toList)
          = some (MValue.str (("cocktail").toList)) ∨
       isSubstr (("cocktails").toList) wRecCock.filepath = true) :=
  c7_is_cocktail_or yamlOkEmpty wPathCock [] (("hello").toList) wRecCock rfl

/-- Claim C5: a recipe classified as a cocktail whose `glass` field is absent
(or falsy) gets exactly one validation message about `glass` and no message
about `cuisine`; `validate` is a total function, so validation never throws,
and each missing required field is reported as one message. -/
theorem c5_cocktail_missing_glass (r : Recipe)
    (hc : r.is_cocktail = true) (hg : optTruthy r.glassV = false) :
    (r.validate).count (msgGlass r.filepath) = 1 ∧
    msgCuisine r.filepath ∉ r.validate := by
  unfold Recipe.validate
  rw [hc, hg]
  rw [if_pos (rfl : true = true)]
  constructor
  · rw [List.count_append, List.count_append]
    have h1 : List.count (msgGlass r.filepath)
        (if !truthy r.titleV || r.titleV == MValue.str (("Untitled Recipe").toList)
         then [msgMissingTitle r.filepath] else []) = 0 := by
      split
      · simp [List.count_cons, beq_iff_eq, msgTitle_ne_glass r.filepath]
      · rfl
    have h2 : List.count (msgGlass r.filepath)
        (if !optTruthy r.spiritBaseV then [msgSpirit r.filepath] else []) = 0 := by
      split
      · simp [List.count_cons, beq_iff_eq, msgSpirit_ne_glass r.filepath]
      · rfl
    have h3 : List.count (msgGlass r.filepath)
        (if (!false : Bool) then [msgGlass r.filepath] else []) = 1 := by simp
    rw [h1, h2, h3]
  · intro hmem
    rw [List.mem_append] at hmem
    rcases hmem with hA | hBC
    · revert hA
      split
      · intro hA
        rw [List.mem_singleton] at hA
        exact msgCuisine_ne_title _ hA
      · intro hA
        exact List.not_mem_nil _ hA
    · rw [List.mem_append] at hBC
      rcases hBC with hB | hC
      · revert hB
        split
        · intro hB
          rw [List.mem_singleton] at hB
          exact msgCuisine_ne_spirit _ hB
        · intro hB
          exact List.not_mem_nil _ hB
      · revert hC
        split
        · intro hC
          rw [List.mem_singleton] at hC
          exact msgCuisine_ne_glass _ hC
        · intro hC
          exact List.not_mem_nil _ hC

/-- Witness for C5: the cocktail fixture with no `glass` field. -/
theorem c5_witness :
    (wCocktail.validate).count (msgGlass wCocktail.filepath) = 1 ∧
    msgCuisine wCocktail.filepath ∉ wCocktail.validate :=
  c5_cocktail_missing_glass wCocktail rfl rfl

theorem loadRecipes_foldl_spec (y : List Char → Except (List Char) Metadata) :
    ∀ (fs : List DocFile) (acc : List Recipe × List (List Char)),
      fs.foldl (loadStep y) acc
        = (acc.1 ++ fs.filterMap (fun f => (loadOne y f).toOption),
           acc.2 ++ fs.filterMap (loadErr y)) := by
  intro fs
  induction fs with
  | nil => intro acc; simp
  | cons f t ih =>
    intro acc
    rw [List.foldl_cons, ih]
    cases h : loadOne y f with
    | ok r =>
      simp [loadStep, loadErr, h, Except.toOption, List.filterMap_cons]
    | error e =>
      simp [loadStep, loadErr, h, Except.toOption, List.filterMap_cons]

/-- Claim C4: collection load is resilient to per-document failures.  If one
document's construction raises (for instance on a malformed header) while all
others succeed, `load_recipes` returns every other document's recipe, in
order, omits the failing one, and reports exactly one skipped-document
warning, for that file. -/
theorem c4_load_resilience (y : List Char → Except (List Char) Metadata)
    (pre post : List DocFile) (d : DocFile) (e : List Char)
    (hok : ∀ f ∈ pre ++ post, (loadOne y f).toOption.isSome = true)
    (hbad : loadOne y d = Except.error e) :
    loadRecipes y (pre ++ d :: post)
      = ((pre ++ post).filterMap (fun f => (loadOne y f).toOption),
         [loadWarn d e]) := by
  unfold loadRecipes
  rw [loadRecipes_foldl_spec]
  have herr : ∀ f ∈ pre ++ post, loadErr y f = none := by
    intro f hf
    have := hok f hf
    unfold loadErr
    cases h : loadOne y f with
    | ok r => rfl
    | error e2 => rw [h] at this; simp [Except.toOption] at this
  simp only [Prod.mk.injEq, List.nil_append]
  constructor
  · rw [List.filterMap_append, List.filterMap_cons, List.filterMap_append]
    rw [hbad]
    simp [Except.toOption]
  · rw [List.filterMap_append, List.filterMap_cons]
    have h1 : List.filterMap (loadErr y) pre = [] := by
      rw [List.filterMap_eq_nil_iff]
      exact fun f hf => herr f (List.mem_append_left _ hf)
    have h2 : List.filterMap (loadErr y) post = [] := by
      rw [List.filterMap_eq_nil_iff]
      exact fun f hf => herr f (List.mem_append_right _ hf)
    rw [h1, h2]
    unfold loadErr
    rw [hbad]
    simp

/-- Witness for C4: three documents, the middle one with a header the YAML
oracle rejects; load returns the other two and one warning. -/
theorem c4_witness :
    loadRecipes yamlErrBoom [wDocA, wDocBad, wDocC]
      = ([wDocA, wDocC].filterMap (fun f => (loadOne yamlErrBoom f).toOption),
         [loadWarn wDocBad (("Invalid YAML frontmatter: boom").toList)]) := by
  have h := c4_load_resilience yamlErrBoom [wDocA] [wDocC] wDocBad
    (("Invalid YAML frontmatter: boom").toList)
    (by decide) (by rfl)
  exact h

theorem sectionLine_shape {m : List Char} (h : isSectionLine m = true) :
    ∃ t, m = '>' :: '>' :: t := by
  unfold isSectionLine at h
  split at h
  · next t => exact ⟨t, rfl⟩
  · cases h

theorem pdfParseAux_spec :
    ∀ (lines : List (List Char)) (d : List (List Char × List Char)) (ins : List Item),
      pdfParseAux d ins lines
        = ((ingMatchesOfLines lines).foldl insertIng d, ins ++ itemsOfLines lines) := by
  intro lines
  induction lines with
  | nil => intro d ins; simp [pdfParseAux, ingMatchesOfLines, itemsOfLines]
  | cons l rest ih =>
    intro d ins
    by_cases h1 : (l.isEmpty || isCommentLine l) = true
    · simp [pdfParseAux, ingMatchesOfLines, itemsOfLines, h1, ih]
    · by_cases h2 : isSectionLine l = true
      · simp [pdfParseAux, ingMatchesOfLines, itemsOfLines, h1, h2, ih]
      · simp [pdfParseAux, ingMatchesOfLines, itemsOfLines, h1, h2, ih,
          List.foldl_append]

theorem siteParseAux_spec :
    ∀ (lines : List (List Char)) (acc : List (List Char)),
      siteParseAux acc lines = acc ++ displaysOfLines lines := by
  intro lines
  induction lines with
  | nil => intro acc; simp [siteParseAux, displaysOfLines]
  | cons l rest ih =>
    intro acc
    by_cases h1 : (l.isEmpty || isCommentLine l) = true
    · simp [siteParseAux, displaysOfLines, h1, ih]
    · by_cases h2 : isSectionLine l = true
      · simp [siteParseAux, displaysOfLines, h1, h2, ih]
      · simp [siteParseAux, displaysOfLines, h1, h2, ih]

theorem groupBlocksAux_steps :
    ∀ (ss : List (List Char)) (cur : List (List Char)) (items : List Item),
      groupBlocksAux cur (ss.map Item.step ++ items)
        = groupBlocksAux (cur ++ ss) items := by
  intro ss
  induction ss with
  | nil => intro cur items; simp
  | cons s t ih =>
    intro cur items
    simp [groupBlocksAux, ih, List.append_assoc]

theorem itemsOfLines_append (a b : List (List Char)) :
    itemsOfLines (a ++ b) = itemsOfLines a ++ itemsOfLines b := by
  induction a with
  | nil => simp [itemsOfLines]
  | cons l t ih =>
    by_cases h1 : (l.isEmpty || isCommentLine l) = true
    · simp [itemsOfLines, h1, ih]
    · by_cases h2 : isSectionLine l = true
      · simp [itemsOfLines, h1, h2, ih]
      · simp [itemsOfLines, h1, h2, ih]

theorem stepLine_parts {l : List Char} (h : isStepLine l = true) :
    l.isEmpty = false ∧ isCommentLine l = false ∧ isSectionLine l = false := by
  unfold isStepLine at h
  simp only [Bool.and_eq_true, Bool.not_eq_true'] at h
  exact ⟨h.1.1, h.1.2, h.2⟩

theorem itemsOfLines_steps :
    ∀ {s : List (List Char)}, (∀ l ∈ s, isStepLine l = true) →
      itemsOfLines s = s.map (fun l => Item.step (pdfResolveLine l)) := by
  intro s
  induction s with
  | nil => intro _; rfl
  | cons l t ih =>
    intro h
    obtain ⟨h1, h2, h3⟩ := stepLine_parts (h l (by simp))
    simp [itemsOfLines, h1, h2, h3, ih (fun x hx => h x (by simp [hx]))]

theorem itemsOfLines_sec {m : List Char} (h : isSectionLine m = true) :
    itemsOfLines [m] = [Item.sec (pstrip (m.drop 2))] := by
  obtain ⟨t, rfl⟩ := sectionLine_shape h
  have hc : isCommentLine ('>' :: '>' :: t) = false := rfl
  simp [itemsOfLines, hc, isSectionLine]

/-- Claim C6: instruction items are emitted in document order and each step
belongs to the most recent preceding section marker (steps before the first
marker forming an implicit leading group): a document of steps `s0`, a
marker, steps `s1`, a second marker, and steps `s2` produces exactly the
three ordered enumerable groups `s0`, `s1`, `s2` (resolved), interleaved with
the two section headers. -/
theorem c6_section_partitioning (m1 m2 : List Char) (s0 s1 s2 : List (List Char))
    (hs : ∀ l ∈ s0 ++ s1 ++ s2, isStepLine l = true)
    (hm1 : isSectionLine m1 = true) (hm2 : isSectionLine m2 = true)
    (h0 : s0 ≠ []) (h1 : s1 ≠ []) (h2 : s2 ≠ []) :
    groupBlocks (pdfInstructionsOfLines (s0 ++ m1 :: (s1 ++ m2 :: s2))) =
      [Block.enum (s0.map pdfResolveLine), Block.header (pstrip (m1.drop 2)),
       Block.enum (s1.map pdfResolveLine), Block.header (pstrip (m2.drop 2)),
       Block.enum (s2.map pdfResolveLine)] := by
  have hs0 : ∀ l ∈ s0, isStepLine l = true := fun l hl => hs l (by simp [hl])
  have hs1 : ∀ l ∈ s1, isStepLine l = true := fun l hl => hs l (by simp [hl])
  have hs2 : ∀ l ∈ s2, isStepLine l = true := fun l hl => hs l (by simp [hl])
  have hins : pdfInstructionsOfLines (s0 ++ m1 :: (s1 ++ m2 :: s2))
      = itemsOfLines (s0 ++ m1 :: (s1 ++ m2 :: s2)) := by
    unfold pdfInstructionsOfLines pdfParseLines
    rw [pdfParseAux_spec]
    simp
  rw [hins]
  have e1 : itemsOfLines (s0 ++ m1 :: (s1 ++ m2 :: s2))
      = (s0.map pdfResolveLine).map Item.step
        ++ (Item.sec (pstrip (m1.drop 2)) :: ((s1.map pdfResolveLine).map Item.step
        ++ (Item.sec (pstrip (m2.drop 2)) :: (s2.map pdfResolveLine).map Item.step))) := by
    have hsh : s0 ++ m1 :: (s1 ++ m2 :: s2) = s0 ++ ([m1] ++ (s1 ++ ([m2] ++ s2))) := by
      simp
    rw [hsh, itemsOfLines_append, itemsOfLines_append, itemsOfLines_append,
      itemsOfLines_append, itemsOfLines_sec hm1, itemsOfLines_sec hm2,
      itemsOfLines_steps hs0, itemsOfLines_steps hs1, itemsOfLines_steps hs2]
    simp only [List.map_map, List.append_assoc, List.singleton_append,
      List.cons_append, List.nil_append]
    rfl
  rw [e1]
  have hne0 : (s0.map pdfResolveLine).isEmpty = false := by
    cases s0 with
    | nil => exact absurd rfl h0
    | cons a t => rfl
  have hne1 : (s1.map pdfResolveLine).isEmpty = false := by
    cases s1 with
    | nil => exact absurd rfl h1
    | cons a t => rfl
  have hne2 : (s2.map pdfResolveLine).isEmpty = false := by
    cases s2 with
    | nil => exact absurd rfl h2
    | cons a t => rfl
  unfold groupBlocks
  rw [groupBlocksAux_steps, List.nil_append]
  simp only [groupBlocksAux, hne0, Bool.false_eq_true, if_false]
  rw [groupBlocksAux_steps, List.nil_append]
  simp only [groupBlocksAux, hne1, Bool.false_eq_true, if_false]
  have hfin : (s2.map pdfResolveLine).map Item.step
      = (s2.map pdfResolveLine).map Item.step ++ ([] : List Item) := by simp
  rw [hfin, groupBlocksAux_steps, List.nil_append]
  simp only [groupBlocksAux, hne2, Bool.false_eq_true, if_false]
  simp

/-- Witness for C6: a concrete five-line document with two markers. -/
theorem c6_witness :
    groupBlocks (pdfInstructionsOfLines
        ([("step one").toList] ++ ((">> Part A").toList
          :: ([("mix well").toList] ++ ((">> Part B").toList :: [("serve").toList]))))) =
      [Block.enum ([("step one").toList].map pdfResolveLine),
       Block.header (pstrip (((">> Part A").toList).drop 2)),
       Block.enum ([("mix well").toList].map pdfResolveLine),
       Block.header (pstrip (((">> Part B").toList).drop 2)),
       Block.enum ([("serve").toList].map pdfResolveLine)] :=
  c6_section_partitioning ((">> Part A").toList) ((">> Part B").toList)
    [("step one").toList] [("mix well").toList] [("serve").toList]
    (by decide) (by decide) (by decide) (by decide) (by decide) (by decide)

theorem subIngName_id : ∀ (fuel : Nat) (l : List Char),
    (∀ c ∈ l, ¬ c = '@') → subIngName fuel l = l := by
  intro fuel
  induction fuel with
  | zero => intro l _; rfl
  | succ n ih =>
    intro l h
    cases l with
    | nil => rfl
    | cons c rest =>
      have hc : ¬ c = '@' := h c (by simp)
      simp [subIngName, hc, ih rest (fun d hd => h d (by simp [hd]))]

theorem subCookware_id : ∀ (fuel : Nat) (l : List Char),
    (∀ c ∈ l, ¬ c = '#') → subCookware fuel l = l := by
  intro fuel
  induction fuel with
  | zero => intro l _; rfl
  | succ n ih =>
    intro l h
    cases l with
    | nil => rfl
    | cons c rest =>
      have hc : ¬ c = '#' := h c (by simp)
      simp [subCookware, hc, ih rest (fun d hd => h d (by simp [hd]))]

theorem subTimer_id : ∀ (fuel : Nat) (l : List Char),
    (∀ c ∈ l, ¬ c = '~') → subTimer fuel l = l := by
  intro fuel
  induction fuel with
  | zero => intro l _; rfl
  | succ n ih =>
    intro l h
    cases l with
    | nil => rfl
    | cons c rest =>
      have hc : ¬ c = '~' := h c (by simp)
      simp [subTimer, hc, ih rest (fun d hd => h d (by simp [hd]))]

theorem subEmptyBraces_id : ∀ (fuel : Nat) (l : List Char),
    (∀ c ∈ l, ¬ c = '\x7b') → subEmptyBraces fuel l = l := by
  intro fuel
  induction fuel with
  | zero => intro l _; rfl
  | succ n ih =>
    intro l h
    cases l with
    | nil => rfl
    | cons c rest =>
      have hc : ¬ c = '\x7b' := h c (by simp)
      have hr := ih rest (fun d hd => h d (List.mem_cons_of_mem _ hd))
      unfold subEmptyBraces
      split
      · exact absurd rfl hc
      · rw [hr]
  
theorem subMarkers_id : ∀ (fuel : Nat) (l : List Char),
    (∀ c ∈ l, ¬ c = '@' ∧ ¬ c = '#' ∧ ¬ c = '~') → subMarkers fuel l = l := by
  intro fuel
  induction fuel with
  | zero => intro l _; rfl
  | succ n ih =>
    intro l h
    cases l with
    | nil => rfl
    | cons c rest =>
      have hc := h c (by simp)
      simp [subMarkers, hc.1, hc.2.1, hc.2.2,
        ih rest (fun d hd => h d (by simp [hd]))]

theorem alnum_ne {c : Char} (x : Char) (hx : x.isAlphanum = false)
    (h : c.isAlphanum = true) : ¬ c = x := by
  intro he
  rw [he] at h
  rw [h] at hx
  cases hx

theorem pdfPlain_spec {c : Char} (h : pdfPlain c = true) :
    ¬ c = '@' ∧ ¬ c = '#' ∧ ¬ c = '~' ∧ ¬ c = '\x7b' ∧ ¬ c = '\x7d' := by
  unfold pdfPlain at h
  simp only [Bool.not_eq_true', Bool.or_eq_false_iff, beq_eq_false_iff_ne, ne_eq] at h
  exact ⟨h.1.1.1.1, h.1.1.1.2, h.1.1.2, h.1.2, h.2⟩

theorem alnum_not_space {c : Char} (h : c.isAlphanum = true) : isSpaceChar c = false := by
  unfold isSpaceChar
  simp only [Bool.or_eq_false_iff, beq_eq_false_iff_ne, ne_eq]
  exact ⟨⟨⟨⟨⟨alnum_ne ' ' (by decide) h, alnum_ne '\t' (by decide) h⟩,
    alnum_ne '\n' (by decide) h⟩, alnum_ne '\r' (by decide) h⟩,
    alnum_ne '\x0b' (by decide) h⟩, alnum_ne '\x0c' (by decide) h⟩

theorem alnum_word {c : Char} (h : c.isAlphanum = true) : isWordChar c = true := by
  simp [isWordChar, h]

theorem alnum_pdfName {c : Char} (h : c.isAlphanum = true) : pdfNameChar c = true := by
  unfold pdfNameChar
  simp only [Bool.not_eq_true', Bool.or_eq_false_iff, beq_eq_false_iff_ne, ne_eq]
  exact ⟨⟨⟨alnum_ne '\x7b' (by decide) h, alnum_ne '@' (by decide) h⟩,
    alnum_ne '#' (by decide) h⟩, alnum_ne '~' (by decide) h⟩

theorem alnum_siteName {c : Char} (h : c.isAlphanum = true) : siteNameChar c = true := by
  simp [siteNameChar, alnum_pdfName h, alnum_not_space h]

theorem subIngName_skip : ∀ (pre : List Char) (k : Nat) (l2 : List Char),
    (∀ c ∈ pre, ¬ c = '@') →
    subIngName (pre.length + k) (pre ++ l2) = pre ++ subIngName k l2 := by
  intro pre
  induction pre with
  | nil => intro k l2 _; simp
  | cons a p ih =>
    intro k l2 h
    have ha : ¬ a = '@' := h a (by simp)
    have hfuel : (a :: p).length + k = (p.length + k) + 1 := by
      simp [Nat.add_right_comm]
    rw [hfuel, List.cons_append]
    simp [subIngName, ha, ih k l2 (fun d hd => h d (by simp [hd]))]

theorem pdfIngAux_skip : ∀ (pre : List Char) (k : Nat) (l2 : List Char),
    (∀ c ∈ pre, ¬ c = '@') →
    pdfIngAux (pre.length + k) (pre ++ l2) = pdfIngAux k l2 := by
  intro pre
  induction pre with
  | nil => intro k l2 _; simp
  | cons a p ih =>
    intro k l2 h
    have ha : ¬ a = '@' := h a (by simp)
    have hfuel : (a :: p).length + k = (p.length + k) + 1 := by
      simp [Nat.add_right_comm]
    rw [hfuel, List.cons_append]
    simp [pdfIngAux, ha, ih k l2 (fun d hd => h d (by simp [hd]))]

theorem siteIngAux_skip : ∀ (pre : List Char) (k : Nat) (l2 : List Char),
    (∀ c ∈ pre, ¬ c = '@') →
    siteIngAux (pre.length + k) (pre ++ l2) = siteIngAux k l2 := by
  intro pre
  induction pre with
  | nil => intro k l2 _; simp
  | cons a p ih =>
    intro k l2 h
    have ha : ¬ a = '@' := h a (by simp)
    have hfuel : (a :: p).length + k = (p.length + k) + 1 := by
      simp [Nat.add_right_comm]
    rw [hfuel, List.cons_append]
    simp [siteIngAux, ha, ih k l2 (fun d hd => h d (by simp [hd]))]

theorem nameSpans_decomp : ∀ (fuel : Nat) (l : List Char),
    (nameSpans fuel l).1 ++ (nameSpans fuel l).2 = l := by
  intro fuel
  induction fuel with
  | zero => intro l; rfl
  | succ n ih =>
    intro l
    have hsp := takeWhile_decomp isSpaceChar l
    have hw := takeWhile_decomp isWordChar (l.drop (l.takeWhile isSpaceChar).length)
    simp only [nameSpans]
    split
    · rfl
    · dsimp only
      simp only [List.append_assoc]
      rw [ih, hw, hsp]

theorem siteSpans_decomp : ∀ (fuel : Nat) (l : List Char),
    (siteSpans fuel l).1 ++ (siteSpans fuel l).2 = l := by
  intro fuel
  induction fuel with
  | zero => intro l; rfl
  | succ n ih =>
    intro l
    have hsp := takeWhile_decomp isSpaceChar l
    have hw := takeWhile_decomp siteNameChar (l.drop (l.takeWhile isSpaceChar).length)
    simp only [siteSpans]
    split
    · rfl
    · dsimp only
      simp only [List.append_assoc]
      rw [ih, hw, hsp]

theorem siteSpans_head_not_space : ∀ (fuel : Nat) {c : Char} {t : List Char},
    isSpaceChar c = false → siteSpans fuel (c :: t) = ([], c :: t) := by
  intro fuel c t h
  cases fuel with
  | zero => rfl
  | succ n =>
    simp [siteSpans, List.takeWhile_cons, h]

theorem matchIngName_decomp {l : List Char} {p : List Char × List Char}
    (h : matchIngName l = some p) : p.1 ++ p.2 = l := by
  unfold matchIngName at h
  by_cases hw : (l.takeWhile isWordChar).isEmpty = true
  · rw [if_pos hw] at h; cases h
  · rw [if_neg hw] at h
    cases h
    dsimp only
    rw [List.append_assoc, nameSpans_decomp, takeWhile_decomp]

theorem skipBraces_id {l : List Char} (h : ∀ c ∈ l, ¬ c = '\x7b') :
    skipBraces l = l := by
  cases l with
  | nil => rfl
  | cons c t =>
    unfold skipBraces
    split
    · next u heq =>
      obtain ⟨hc, -⟩ := List.cons_eq_cons.mp heq
      exact absurd hc (h c (by simp))
    · rfl

theorem pdfIngTry_has_brace {l : List Char} {m : (List Char × List Char) × List Char}
    (h : pdfIngTry l = some m) : '\x7b' ∈ l := by
  unfold pdfIngTry at h
  by_cases hn : (l.takeWhile pdfNameChar).isEmpty = true
  · rw [if_pos hn] at h; cases h
  · rw [if_neg hn] at h
    split at h
    · next t heq =>
      have hmem : '\x7b' ∈ l.drop (l.takeWhile pdfNameChar).length := by
        rw [heq]; simp
      exact List.mem_of_mem_drop hmem
    · cases h

theorem siteIngTry_has_brace {l : List Char} {m : (List Char × List Char) × List Char}
    (h : siteIngTry l = some m) : '\x7b' ∈ l := by
  unfold siteIngTry at h
  by_cases hn : (l.takeWhile siteNameChar).isEmpty = true
  · rw [if_pos hn] at h; cases h
  · rw [if_neg hn] at h
    dsimp only at h
    split at h
    · next t heq =>
      have h1 : '\x7b' ∈ (siteSpans (l.drop (l.takeWhile siteNameChar).length).length
          (l.drop (l.takeWhile siteNameChar).length)).2 := by
        rw [heq]; simp
      have h2 : '\x7b' ∈ l.drop (l.takeWhile siteNameChar).length := by
        rw [← siteSpans_decomp (l.drop (l.takeWhile siteNameChar).length).length
          (l.drop (l.takeWhile siteNameChar).length)]
        exact List.mem_append_right _ h1
      exact List.mem_of_mem_drop h2
    · cases h

theorem pdfIngAux_no_brace : ∀ (fuel : Nat) (l : List Char),
    (∀ c ∈ l, ¬ c = '\x7b') → pdfIngAux fuel l = [] := by
  intro fuel
  induction fuel with
  | zero => intro l _; rfl
  | succ n ih =>
    intro l h
    cases l with
    | nil => rfl
    | cons c rest =>
      by_cases hc : c = '@'
      · subst hc
        cases hm : pdfIngTry rest with
        | some m =>
          exact absurd rfl
            (h '\x7b' (List.mem_cons_of_mem _ (pdfIngTry_has_brace hm)))
        | none => simp [pdfIngAux, hm, ih rest (fun d hd => h d (by simp [hd]))]
      · simp [pdfIngAux, hc, ih rest (fun d hd => h d (by simp [hd]))]

theorem siteIngAux_no_brace : ∀ (fuel : Nat) (l : List Char),
    (∀ c ∈ l, ¬ c = '\x7b') → siteIngAux fuel l = [] := by
  intro fuel
  induction fuel with
  | zero => intro l _; rfl
  | succ n ih =>
    intro l h
    cases l with
    | nil => rfl
    | cons c rest =>
      by_cases hc : c = '@'
      · subst hc
        cases hm : siteIngTry rest with
        | some m =>
          exact absurd rfl
            (h '\x7b' (List.mem_cons_of_mem _ (siteIngTry_has_brace hm)))
        | none => simp [siteIngAux, hm, ih rest (fun d hd => h d (by simp [hd]))]
      · simp [siteIngAux, hc, ih rest (fun d hd => h d (by simp [hd]))]

theorem resolve_bare (pre w post : List Char)
    (hpre : ∀ c ∈ pre, pdfPlain c = true) (hpost : ∀ c ∈ post, pdfPlain c = true)
    (hw : w ≠ []) (hwa : ∀ c ∈ w, c.isAlphanum = true) :
    pdfResolveLine (pre ++ '@' :: (w ++ post)) = pre ++ (w ++ post) := by
  have hchars : ∀ c ∈ pre ++ (w ++ post),
      ¬ c = '@' ∧ ¬ c = '#' ∧ ¬ c = '~' ∧ ¬ c = '\x7b' ∧ ¬ c = '\x7d' := by
    intro c hc
    rcases List.mem_append.mp hc with hp | hwp
    · exact pdfPlain_spec (hpre c hp)
    · rcases List.mem_append.mp hwp with hw2 | hp2
      · have ha := hwa c hw2
        exact ⟨alnum_ne '@' (by decide) ha, alnum_ne '#' (by decide) ha,
          alnum_ne '~' (by decide) ha, alnum_ne '\x7b' (by decide) ha,
          alnum_ne '\x7d' (by decide) ha⟩
      · exact pdfPlain_spec (hpost c hp2)
  have hrest : ∀ c ∈ w ++ post, ¬ c = '@' ∧ ¬ c = '\x7b' := by
    intro c hc
    have h2 := hchars c (List.mem_append_right _ hc)
    exact ⟨h2.1, h2.2.2.2.1⟩
  have s1 : subIngName (pre ++ '@' :: (w ++ post)).length (pre ++ '@' :: (w ++ post))
      = pre ++ (w ++ post) := by
    have hlen : (pre ++ '@' :: (w ++ post)).length
        = pre.length + ('@' :: (w ++ post)).length := by simp
    rw [hlen, subIngName_skip pre _ _ (fun c hc => (pdfPlain_spec (hpre c hc)).1)]
    have htail : subIngName ('@' :: (w ++ post)).length ('@' :: (w ++ post))
        = w ++ post := by
      cases w with
      | nil => exact absurd rfl hw
      | cons a w2 =>
        have haw : isWordChar a = true := alnum_word (hwa a (by simp))
        rw [List.cons_append]
        cases hm : matchIngName (a :: (w2 ++ post)) with
        | none =>
          unfold matchIngName at hm
          simp [List.takeWhile_cons, haw] at hm
        | some p =>
          have hdec : p.1 ++ p.2 = a :: (w2 ++ post) := matchIngName_decomp hm
          have hp2 : ∀ c ∈ p.2, ¬ c = '@' ∧ ¬ c = '\x7b' := by
            intro c hc
            have hmem : c ∈ a :: (w2 ++ post) := by
              rw [← hdec]; exact List.mem_append_right _ hc
            exact hrest c (by simpa using hmem)
          have hsb : skipBraces p.2 = p.2 := skipBraces_id (fun c hc => (hp2 c hc).2)
          simp only [List.length_cons]
          simp [subIngName, hm, hsb,
            subIngName_id _ p.2 (fun c hc => (hp2 c hc).1), hdec]
    rw [htail]
  have s2 : subCookware (pre ++ (w ++ post)).length (pre ++ (w ++ post))
      = pre ++ (w ++ post) := subCookware_id _ _ (fun c hc => (hchars c hc).2.1)
  have s3 : subTimer (pre ++ (w ++ post)).length (pre ++ (w ++ post))
      = pre ++ (w ++ post) := subTimer_id _ _ (fun c hc => (hchars c hc).2.2.1)
  have s4 : subEmptyBraces (pre ++ (w ++ post)).length (pre ++ (w ++ post))
      = pre ++ (w ++ post) := subEmptyBraces_id _ _ (fun c hc => (hchars c hc).2.2.2.1)
  have s5 : subMarkers (pre ++ (w ++ post)).length (pre ++ (w ++ post))
      = pre ++ (w ++ post) := subMarkers_id _ _
        (fun c hc => ⟨(hchars c hc).1, (hchars c hc).2.1, (hchars c hc).2.2.1⟩)
  simp only [pdfResolveLine]
  rw [s1, s2, s3, s4, s5]

theorem pdfIngTry_empty_qty (w post : List Char) (hw : w ≠ [])
    (hwa : ∀ c ∈ w, c.isAlphanum = true) :
    pdfIngTry (w ++ '\x7b' :: '\x7d' :: post) = some ((w, []), post) := by
  have htw : (w ++ '\x7b' :: '\x7d' :: post).takeWhile pdfNameChar = w :=
    takeWhile_all_append w _ (fun c hc => alnum_pdfName (hwa c hc)) (by decide)
  have hwe : w.isEmpty = false := by
    cases w with
    | nil => exact absurd rfl hw
    | cons a t => rfl
  unfold pdfIngTry
  rw [htw]
  dsimp only
  rw [hwe]
  simp [List.drop_left, List.takeWhile_cons]

theorem siteIngTry_empty_qty (w post : List Char) (hw : w ≠ [])
    (hwa : ∀ c ∈ w, c.isAlphanum = true) :
    siteIngTry (w ++ '\x7b' :: '\x7d' :: post) = some ((w, []), post) := by
  have htw : (w ++ '\x7b' :: '\x7d' :: post).takeWhile siteNameChar = w :=
    takeWhile_all_append w _ (fun c hc => alnum_siteName (hwa c hc)) (by decide)
  have hwe : w.isEmpty = false := by
    cases w with
    | nil => exact absurd rfl hw
    | cons a t => rfl
  unfold siteIngTry
  rw [htw]
  dsimp only
  rw [hwe]
  simp only [Bool.false_eq_true, if_false, List.drop_left]
  rw [siteSpans_head_not_space _ (by decide)]
  simp [List.takeWhile_cons]

/-- Claim C10: a bare ingredient annotation `@name` (a word after `@` with no
brace pair following anywhere in the rest of the line) is replaced by its
name in the PDF resolution pass but registers nothing in either generator's
ingredient extraction; with an empty-quantity brace pair `@name{}` both
extractions register exactly the one entry for `name`. -/
theorem c10_bare_ingredient (pre w post : List Char)
    (hpre : ∀ c ∈ pre, pdfPlain c = true) (hpost : ∀ c ∈ post, pdfPlain c = true)
    (hw : w ≠ []) (hwa : ∀ c ∈ w, c.isAlphanum = true) :
    pdfResolveLine (pre ++ '@' :: (w ++ post)) = pre ++ (w ++ post) ∧
    pdfIngAux (pre ++ '@' :: (w ++ post)).length (pre ++ '@' :: (w ++ post)) = [] ∧
    siteIngAux (pre ++ '@' :: (w ++ post)).length (pre ++ '@' :: (w ++ post)) = [] ∧
    pdfIngAux (pre ++ '@' :: (w ++ '\x7b' :: '\x7d' :: post)).length
        (pre ++ '@' :: (w ++ '\x7b' :: '\x7d' :: post)) = [(w, [])] ∧
    siteIngAux (pre ++ '@' :: (w ++ '\x7b' :: '\x7d' :: post)).length
        (pre ++ '@' :: (w ++ '\x7b' :: '\x7d' :: post)) = [(w, [])] := by
  have hnb : ∀ c ∈ pre ++ '@' :: (w ++ post), ¬ c = '\x7b' := by
    intro c hc
    rcases List.mem_append.mp hc with hp | hq
    · exact (pdfPlain_spec (hpre c hp)).2.2.2.1
    · rcases List.mem_cons.mp hq with rfl | hq2
      · decide
      · rcases List.mem_append.mp hq2 with h3 | h4
        · exact alnum_ne '\x7b' (by decide) (hwa c h3)
        · exact (pdfPlain_spec (hpost c h4)).2.2.2.1
  have hpostnb : ∀ c ∈ post, ¬ c = '\x7b' :=
    fun c hc => (pdfPlain_spec (hpost c hc)).2.2.2.1
  have hpreat : ∀ c ∈ pre, ¬ c = '@' :=
    fun c hc => (pdfPlain_spec (hpre c hc)).1
  refine ⟨resolve_bare pre w post hpre hpost hw hwa, pdfIngAux_no_brace _ _ hnb,
    siteIngAux_no_brace _ _ hnb, ?_, ?_⟩
  · have hlen : (pre ++ '@' :: (w ++ '\x7b' :: '\x7d' :: post)).length
        = pre.length + ('@' :: (w ++ '\x7b' :: '\x7d' :: post)).length := by simp
    rw [hlen, pdfIngAux_skip pre _ _ hpreat]
    simp only [List.length_cons]
    simp [pdfIngAux, pdfIngTry_empty_qty w post hw hwa,
      pdfIngAux_no_brace _ post hpostnb]
  · have hlen : (pre ++ '@' :: (w ++ '\x7b' :: '\x7d' :: post)).length
        = pre.length + ('@' :: (w ++ '\x7b' :: '\x7d' :: post)).length := by simp
    rw [hlen, siteIngAux_skip pre _ _ hpreat]
    simp only [List.length_cons]
    simp [siteIngAux, siteIngTry_empty_qty w post hw hwa,
      siteIngAux_no_brace _ post hpostnb]

/-- Witness for C10: the bare annotation `@salt` inside `Mix @salt well`. -/
theorem c10_witness :
    pdfResolveLine (("Mix ").toList ++ '@' :: (("salt").toList ++ (" well").toList))
      = ("Mix ").toList ++ (("salt").toList ++ (" well").toList) ∧
    pdfIngAux (("Mix ").toList ++ '@' :: (("salt").toList ++ (" well").toList)).length
        (("Mix ").toList ++ '@' :: (("salt").toList ++ (" well").toList)) = [] ∧
    siteIngAux (("Mix ").toList ++ '@' :: (("salt").toList ++ (" well").toList)).length
        (("Mix ").toList ++ '@' :: (("salt").toList ++ (" well").toList)) = [] ∧
    pdfIngAux (("Mix ").toList ++ '@' :: (("salt").toList ++ ('\x7b' :: '\x7d' :: (" well").toList))).length
        (("Mix ").toList ++ '@' :: (("salt").toList ++ ('\x7b' :: '\x7d' :: (" well").toList)))
      = [(("salt").toList, [])] ∧
    siteIngAux (("Mix ").toList ++ '@' :: (("salt").toList ++ ('\x7b' :: '\x7d' :: (" well").toList))).length
        (("Mix ").toList ++ '@' :: (("salt").toList ++ ('\x7b' :: '\x7d' :: (" well").toList)))
      = [(("salt").toList, [])] :=
  c10_bare_ingredient (("Mix ").toList) (("salt").toList) ((" well").toList)
    (by decide) (by decide) (by decide) (by decide)

theorem filter_key_nil_of_any_false {d : List (List Char × List Char)} {k : List Char}
    (hd : d.any (fun e => e.1 == k) = false) :
    d.filter (fun e => e.1 == k) = [] := by
  rw [List.filter_eq_nil_iff]
  intro e he hbeq
  have h2 : d.any (fun e => e.1 == k) = true := List.any_eq_true.mpr ⟨e, he, hbeq⟩
  rw [h2] at hd
  cases hd

theorem foldl_insertIng_filter_stable (k : List Char) :
    ∀ (ms : List (List Char × List Char)) (d : List (List Char × List Char)),
      d.any (fun e => e.1 == k) = true →
      (ms.foldl insertIng d).filter (fun e => e.1 == k)
        = d.filter (fun e => e.1 == k) := by
  intro ms
  induction ms with
  | nil => intro d _; rfl
  | cons m t ih =>
    intro d hd
    rw [List.foldl_cons]
    by_cases hm : d.any (fun e => e.1 == ingKey m.1) = true
    · rw [show insertIng d m = d from by simp [insertIng, hm]]
      exact ih d hd
    · have hne : ¬ ingKey m.1 = k := by
        intro he
        rw [he] at hm
        exact hm hd
      have hmf : d.any (fun e => e.1 == ingKey m.1) = false := by
        cases hbool : d.any (fun e => e.1 == ingKey m.1) with
        | true => exact absurd hbool hm
        | false => rfl
      have hinsert : insertIng d m = d ++ [(ingKey m.1, mkDisplay m.1 m.2)] := by
        simp [insertIng, hmf]
      have hany : (d ++ [(ingKey m.1, mkDisplay m.1 m.2)]).any
          (fun e => e.1 == k) = true := by
        simp [List.any_append, hd]
      rw [hinsert, ih _ hany, List.filter_append]
      have hfil : List.filter (fun e => e.1 == k) [(ingKey m.1, mkDisplay m.1 m.2)] = [] := by
        simp [List.filter_cons, hne]
      rw [hfil, List.append_nil]

theorem foldl_insertIng_filter_first (k : List Char) :
    ∀ (ms : List (List Char × List Char)) (d : List (List Char × List Char)),
      d.any (fun e => e.1 == k) = false →
      (ms.foldl insertIng d).filter (fun e => e.1 == k)
        = (match ms.find? (fun m => ingKey m.1 == k) with
           | some m => [(k, mkDisplay m.1 m.2)]
           | none => []) := by
  intro ms
  induction ms with
  | nil =>
    intro d hd
    exact filter_key_nil_of_any_false hd
  | cons m t ih =>
    intro d hd
    rw [List.foldl_cons, List.find?_cons]
    by_cases hk : (ingKey m.1 == k) = true
    · have hkeq : ingKey m.1 = k := beq_iff_eq.mp hk
      have hdm : d.any (fun e => e.1 == ingKey m.1) = false := by rw [hkeq]; exact hd
      have hinsert : insertIng d m = d ++ [(ingKey m.1, mkDisplay m.1 m.2)] := by
        simp [insertIng, hdm]
      have hany : (d ++ [(ingKey m.1, mkDisplay m.1 m.2)]).any
          (fun e => e.1 == k) = true := by
        simp [List.any_append, hkeq]
      rw [hinsert, foldl_insertIng_filter_stable k t _ hany, List.filter_append,
        filter_key_nil_of_any_false hd]
      simp [List.filter_cons, hk, hkeq]
    · have hkf : (ingKey m.1 == k) = false := by
        cases hbool : (ingKey m.1 == k) with
        | true => exact absurd hbool hk
        | false => rfl
      simp only [hkf]
      cases hins : d.any (fun e => e.1 == ingKey m.1) with
      | true =>
        rw [show insertIng d m = d from by simp [insertIng, hins]]
        exact ih d hd
      | false =>
        have hinsert : insertIng d m = d ++ [(ingKey m.1, mkDisplay m.1 m.2)] := by
          simp [insertIng, hins]
        rw [hinsert]
        apply ih
        simp [List.any_append, hd, hkf]

theorem ingMatchesOfLines_append (a b : List (List Char)) :
    ingMatchesOfLines (a ++ b) = ingMatchesOfLines a ++ ingMatchesOfLines b := by
  induction a with
  | nil => simp [ingMatchesOfLines]
  | cons l t ih =>
    by_cases h1 : (l.isEmpty || isCommentLine l) = true
    · simp [ingMatchesOfLines, h1, ih]
    · by_cases h2 : isSectionLine l = true
      · simp [ingMatchesOfLines, h1, h2, ih]
      · simp [ingMatchesOfLines, h1, h2, ih]

theorem mem_ingMatchesOfLines :
    ∀ {ls : List (List Char)} {m : List Char × List Char},
      m ∈ ingMatchesOfLines ls → ∃ l ∈ ls, m ∈ pdfIngAux l.length l := by
  intro ls
  induction ls with
  | nil => intro m hm; cases hm
  | cons l t ih =>
    intro m hm
    by_cases h1 : (l.isEmpty || isCommentLine l) = true
    · rw [show ingMatchesOfLines (l :: t) = ingMatchesOfLines t from by
        simp [ingMatchesOfLines, h1]] at hm
      obtain ⟨l2, hl2, hm2⟩ := ih hm
      exact ⟨l2, by simp [hl2], hm2⟩
    · by_cases h2 : isSectionLine l = true
      · rw [show ingMatchesOfLines (l :: t) = ingMatchesOfLines t from by
          simp [ingMatchesOfLines, h1, h2]] at hm
        obtain ⟨l2, hl2, hm2⟩ := ih hm
        exact ⟨l2, by simp [hl2], hm2⟩
      · rw [show ingMatchesOfLines (l :: t)
            = pdfIngAux l.length l ++ ingMatchesOfLines t from by
          simp [ingMatchesOfLines, h1, h2]] at hm
        rcases List.mem_append.mp hm with hml | hmt
        · exact ⟨l, by simp, hml⟩
        · obtain ⟨l2, hl2, hm2⟩ := ih hmt
          exact ⟨l2, by simp [hl2], hm2⟩

theorem find?_cons_of_pos {α : Type} {p : α → Bool} {a : α} (l : List α)
    (h : p a = true) : List.find? p (a :: l) = some a := by
  rw [List.find?_cons, h]

/-- Claim C2: in a document where `@salt{1 tsp}` is the first ingredient
occurrence whose deduplication key (the lowercased, trimmed name) is `salt`,
and `@Salt{2 tsp}` appears on a later line, the PDF ingredient registry holds
exactly one entry for that key, equal to `salt (1 tsp)`: the first occurrence
wins and later occurrences with different quantity text are discarded, not
merged. -/
theorem c2_dedup_first_wins (pre mid post : List (List Char))
    (h : ∀ l ∈ pre ++ mid, ∀ m ∈ pdfIngAux l.length l,
      ¬ ingKey m.1 = ("salt").toList) :
    ((pdfRegistryOfLines (pre ++ ((("@salt\x7b1 tsp\x7d").toList)
        :: (mid ++ ((("@Salt\x7b2 tsp\x7d").toList) :: post))))).filter
          (fun e => e.1 == ("salt").toList)).map (fun e => e.2)
      = [("salt (1 tsp)").toList] := by
  have hreg : pdfRegistryOfLines (pre ++ ((("@salt\x7b1 tsp\x7d").toList)
      :: (mid ++ ((("@Salt\x7b2 tsp\x7d").toList) :: post))))
      = (ingMatchesOfLines (pre ++ ((("@salt\x7b1 tsp\x7d").toList)
          :: (mid ++ ((("@Salt\x7b2 tsp\x7d").toList) :: post))))).foldl insertIng [] := by
    unfold pdfRegistryOfLines
    rw [pdfParseAux_spec]
  rw [hreg, foldl_insertIng_filter_first _ _ _ (by simp)]
  have hc1 : ingMatchesOfLines ((("@salt\x7b1 tsp\x7d").toList)
      :: (mid ++ ((("@Salt\x7b2 tsp\x7d").toList) :: post)))
      = pdfIngAux (("@salt\x7b1 tsp\x7d").toList).length (("@salt\x7b1 tsp\x7d").toList)
        ++ ingMatchesOfLines (mid ++ ((("@Salt\x7b2 tsp\x7d").toList) :: post)) := rfl
  have hm1 : pdfIngAux (("@salt\x7b1 tsp\x7d").toList).length (("@salt\x7b1 tsp\x7d").toList)
      = [((("salt").toList), (("1 tsp").toList))] := by decide
  have hfpre : List.find? (fun m => ingKey m.1 == ("salt").toList)
      (ingMatchesOfLines pre) = none := by
    rw [List.find?_eq_none]
    intro x hx hbeq
    obtain ⟨l, hl, hxl⟩ := mem_ingMatchesOfLines hx
    exact h l (List.mem_append_left _ hl) x hxl (beq_iff_eq.mp hbeq)
  have hfind : List.find? (fun m => ingKey m.1 == ("salt").toList)
      (ingMatchesOfLines (pre ++ ((("@salt\x7b1 tsp\x7d").toList)
        :: (mid ++ ((("@Salt\x7b2 tsp\x7d").toList) :: post)))))
      = some ((("salt").toList), (("1 tsp").toList)) := by
    rw [ingMatchesOfLines_append, hc1, hm1, List.find?_append, hfpre]
    rw [List.singleton_append, find?_cons_of_pos _ (by decide)]
    rfl
  rw [hfind]
  decide

/-- Witness for C2: a concrete document with a `pepper` line before and a
third `salt` line after the two from the claim. -/
theorem c2_witness :
    ((pdfRegistryOfLines ([("@pepper\x7b2\x7d").toList]
        ++ ((("@salt\x7b1 tsp\x7d").toList)
          :: ([] ++ ((("@Salt\x7b2 tsp\x7d").toList)
            :: [("@salt\x7b9\x7d").toList]))))).filter
          (fun e => e.1 == ("salt").toList)).map (fun e => e.2)
      = [("salt (1 tsp)").toList] :=
  c2_dedup_first_wins [("@pepper\x7b2\x7d").toList] [] [("@salt\x7b9\x7d").toList]
    (by decide)

theorem pdfIngTry_canon {w t q u : List Char}
    (hw : w ≠ []) (hwa : ∀ c ∈ w, c.isAlphanum = true)
    (hq : t.takeWhile (fun d => !(d == '\x7d')) = q)
    (hu : t.drop q.length = '\x7d' :: u) :
    pdfIngTry (w ++ '\x7b' :: t) = some ((w, q), u) := by
  have htw : (w ++ '\x7b' :: t).takeWhile pdfNameChar = w :=
    takeWhile_all_append w _ (fun c hc => alnum_pdfName (hwa c hc)) (by decide)
  have hwe : w.isEmpty = false := by
    cases w with
    | nil => exact absurd rfl hw
    | cons a t2 => rfl
  unfold pdfIngTry
  rw [htw]
  dsimp only
  rw [hwe]
  simp only [Bool.false_eq_true, if_false, List.drop_left]
  rw [hq, hu]
  rfl

theorem siteIngTry_canon {w t q u : List Char}
    (hw : w ≠ []) (hwa : ∀ c ∈ w, c.isAlphanum = true)
    (hq : t.takeWhile (fun d => !(d == '\x7d')) = q)
    (hu : t.drop q.length = '\x7d' :: u) :
    siteIngTry (w ++ '\x7b' :: t) = some ((w, q), u) := by
  have htw : (w ++ '\x7b' :: t).takeWhile siteNameChar = w :=
    takeWhile_all_append w _ (fun c hc => alnum_siteName (hwa c hc)) (by decide)
  have hwe : w.isEmpty = false := by
    cases w with
    | nil => exact absurd rfl hw
    | cons a t2 => rfl
  unfold siteIngTry
  rw [htw]
  dsimp only
  rw [hwe]
  simp only [Bool.false_eq_true, if_false, List.drop_left]
  rw [siteSpans_head_not_space _ (by decide)]
  simp only [hq, hu]
  simp

theorem ing_aux_canon :
    ∀ (cf : Nat) (l : List Char) (fuel : Nat), l.length ≤ cf → canonLine cf l = true →
      siteIngAux fuel l = pdfIngAux fuel l ∧
      ∀ m ∈ pdfIngAux fuel l,
        m.1 ≠ [] ∧ (∀ c ∈ m.1, c.isAlphanum = true) ∧ (∀ c ∈ m.2, ¬ c = ')') := by
  intro cf
  induction cf with
  | zero =>
    intro l fuel hlen hcan
    have hnil : l = [] := List.length_eq_zero.mp (Nat.le_zero.mp hlen)
    subst hnil
    cases fuel with
    | zero => exact ⟨rfl, by intro m hm; cases hm⟩
    | succ g => exact ⟨rfl, by intro m hm; cases hm⟩
  | succ n ih =>
    intro l fuel hlen hcan
    cases l with
    | nil =>
      cases fuel with
      | zero => exact ⟨rfl, by intro m hm; cases hm⟩
      | succ g => exact ⟨rfl, by intro m hm; cases hm⟩
    | cons c rest =>
      have hrlen : rest.length ≤ n := by
        simp only [List.length_cons] at hlen
        omega
      by_cases hc : c = '@'
      · subst hc
        unfold canonLine at hcan
        rw [if_pos rfl] at hcan
        dsimp only at hcan
        by_cases hwE : (rest.takeWhile Char.isAlphanum).isEmpty = true
        · rw [if_pos hwE] at hcan; cases hcan
        · rw [if_neg hwE] at hcan
          split at hcan
          · next t heq =>
            by_cases hqa : ((t.takeWhile (fun d => !(d == '\x7d'))).all
                (fun d => !(d == ')'))) = true
            · rw [if_pos hqa] at hcan
              split at hcan
              · next u hequ =>
                have hwne : rest.takeWhile Char.isAlphanum ≠ [] := by
                  intro hnil2
                  rw [hnil2] at hwE
                  exact hwE rfl
                have hwa : ∀ c2 ∈ rest.takeWhile Char.isAlphanum,
                    c2.isAlphanum = true := fun c2 hc2 => List.mem_takeWhile_imp hc2
                have hdecomp : rest.takeWhile Char.isAlphanum ++ '\x7b' :: t = rest := by
                  rw [← heq]
                  exact takeWhile_decomp _ rest
                have htdecomp : t.takeWhile (fun d => !(d == '\x7d')) ++ '\x7d' :: u
                    = t := by
                  rw [← hequ]
                  exact takeWhile_decomp _ t
                have hulen : u.length ≤ n := by
                  have e1 := congrArg List.length hdecomp
                  have e2 := congrArg List.length htdecomp
                  simp [List.length_append] at e1 e2
                  omega
                have hqchars : ∀ c2 ∈ t.takeWhile (fun d => !(d == '\x7d')),
                    ¬ c2 = ')' := by
                  intro c2 hc2
                  have := List.all_eq_true.mp hqa c2 hc2
                  simpa using this
                have hptry : pdfIngTry rest
                    = some ((rest.takeWhile Char.isAlphanum,
                        t.takeWhile (fun d => !(d == '\x7d'))), u) := by
                  conv_lhs => rw [← hdecomp]
                  exact pdfIngTry_canon hwne hwa rfl hequ
                have hstry : siteIngTry rest
                    = some ((rest.takeWhile Char.isAlphanum,
                        t.takeWhile (fun d => !(d == '\x7d'))), u) := by
                  conv_lhs => rw [← hdecomp]
                  exact siteIngTry_canon hwne hwa rfl hequ
                cases fuel with
                | zero => exact ⟨rfl, by intro m hm; cases hm⟩
                | succ g =>
                  have hrec := ih u g hulen hcan
                  constructor
                  · simp [pdfIngAux, siteIngAux, hptry, hstry, hrec.1]
                  · intro m hm
                    rw [show pdfIngAux (g + 1) ('@' :: rest)
                        = ((rest.takeWhile Char.isAlphanum,
                            t.takeWhile (fun d => !(d == '\x7d'))), u).1
                          :: pdfIngAux g u from by simp [pdfIngAux, hptry]] at hm
                    rcases List.mem_cons.mp hm with rfl | hm2
                    · exact ⟨hwne, hwa, hqchars⟩
                    · exact hrec.2 m hm2
              · cases hcan
            · rw [if_neg hqa] at hcan; cases hcan
          · cases hcan
      · have hcan2 : canonLine n rest = true := by
          unfold canonLine at hcan
          rwa [if_neg hc] at hcan
        have hrec := fun g => ih rest g hrlen hcan2
        cases fuel with
        | zero => exact ⟨rfl, by intro m hm; cases hm⟩
        | succ g =>
          constructor
          · simp [pdfIngAux, siteIngAux, hc, (hrec g).1]
          · intro m hm
            rw [show pdfIngAux (g + 1) (c :: rest) = pdfIngAux g rest from by
              simp [pdfIngAux, hc]] at hm
            exact (hrec g).2 m hm

theorem matches_canon_lines :
    ∀ (lines : List (List Char)), (∀ l ∈ lines, canonLine l.length l = true) →
      displaysOfLines lines
        = (ingMatchesOfLines lines).map (fun m => mkDisplay m.1 m.2) ∧
      ∀ m ∈ ingMatchesOfLines lines,
        m.1 ≠ [] ∧ (∀ c ∈ m.1, c.isAlphanum = true) ∧ (∀ c ∈ m.2, ¬ c = ')') := by
  intro lines
  induction lines with
  | nil => intro _; exact ⟨rfl, by intro m hm; cases hm⟩
  | cons l t ih =>
    intro h
    have hl := ing_aux_canon l.length l l.length (Nat.le_refl _) (h l (by simp))
    have ht := ih (fun x hx => h x (by simp [hx]))
    by_cases h1 : (l.isEmpty || isCommentLine l) = true
    · constructor
      · simp [displaysOfLines, ingMatchesOfLines, h1, ht.1]
      · intro m hm
        rw [show ingMatchesOfLines (l :: t) = ingMatchesOfLines t from by
          simp [ingMatchesOfLines, h1]] at hm
        exact ht.2 m hm
    · by_cases h2 : isSectionLine l = true
      · constructor
        · simp [displaysOfLines, ingMatchesOfLines, h1, h2, ht.1]
        · intro m hm
          rw [show ingMatchesOfLines (l :: t) = ingMatchesOfLines t from by
            simp [ingMatchesOfLines, h1, h2]] at hm
          exact ht.2 m hm
      · constructor
        · simp [displaysOfLines, ingMatchesOfLines, h1, h2, ht.1, hl.1]
        · intro m hm
          rw [show ingMatchesOfLines (l :: t)
              = pdfIngAux l.length l ++ ingMatchesOfLines t from by
            simp [ingMatchesOfLines, h1, h2]] at hm
          rcases List.mem_append.mp hm with hml | hmt
          · exact hl.2 m hml
          · exact ht.2 m hmt

theorem beq_symm_list (a b : List Char) : (a == b) = (b == a) := by
  by_cases h : a = b
  · subst h; rfl
  · rw [beq_eq_false_iff_ne.mpr h, beq_eq_false_iff_ne.mpr (fun hh => h hh.symm)]

theorem any_key_eq_contains (d : List (List Char × List Char)) (k : List Char) :
    d.any (fun e => e.1 == k) = (d.map (fun e => e.1)).contains k := by
  induction d with
  | nil => rfl
  | cons e t ih =>
    simp only [List.any_cons, List.map_cons, List.contains_cons, ih]
    rw [beq_symm_list]

theorem foldl_insert_eq_dedupFirst :
    ∀ (ms : List (List Char × List Char)) (d : List (List Char × List Char))
      (seen : List (List Char)),
      d.map (fun e => e.1) = seen →
      (∀ m ∈ ms, baseKey (mkDisplay m.1 m.2) = ingKey m.1) →
      (ms.foldl insertIng d).map (fun e => e.2)
        = d.map (fun e => e.2)
          ++ dedupFirst seen (ms.map (fun m => mkDisplay m.1 m.2)) := by
  intro ms
  induction ms with
  | nil => intro d seen _ _; simp [dedupFirst]
  | cons m t ih =>
    intro d seen hds hcanon
    have hbk : baseKey (mkDisplay m.1 m.2) = ingKey m.1 := hcanon m (by simp)
    rw [List.foldl_cons, List.map_cons]
    cases hmem : seen.contains (baseKey (mkDisplay m.1 m.2)) with
    | true =>
      have hany : d.any (fun e => e.1 == ingKey m.1) = true := by
        rw [any_key_eq_contains, hds, ← hbk]
        exact hmem
      have hin : baseKey (mkDisplay m.1 m.2) ∈ seen := by simpa using hmem
      rw [show insertIng d m = d from by simp [insertIng, hany]]
      rw [show dedupFirst seen
          (mkDisplay m.1 m.2 :: t.map (fun x => mkDisplay x.1 x.2))
          = dedupFirst seen (t.map (fun x => mkDisplay x.1 x.2)) from by
        simp [dedupFirst, hin]]
      exact ih d seen hds (fun x hx => hcanon x (List.mem_cons_of_mem _ hx))
    | false =>
      have hany : d.any (fun e => e.1 == ingKey m.1) = false := by
        rw [any_key_eq_contains, hds, ← hbk]
        exact hmem
      rw [show insertIng d m = d ++ [(ingKey m.1, mkDisplay m.1 m.2)] from by
        simp [insertIng, hany]]
      have hnin : baseKey (mkDisplay m.1 m.2) ∉ seen := by simpa using hmem
      rw [show dedupFirst seen
          (mkDisplay m.1 m.2 :: t.map (fun x => mkDisplay x.1 x.2))
          = mkDisplay m.1 m.2
            :: dedupFirst (seen ++ [baseKey (mkDisplay m.1 m.2)])
                (t.map (fun x => mkDisplay x.1 x.2)) from by
        simp [dedupFirst, hnin]]
      have hds2 : (d ++ [(ingKey m.1, mkDisplay m.1 m.2)]).map (fun e => e.1)
          = seen ++ [baseKey (mkDisplay m.1 m.2)] := by
        simp [hds, hbk]
      rw [ih _ _ hds2 (fun x hx => hcanon x (List.mem_cons_of_mem _ hx))]
      simp

theorem removeParens_id : ∀ (fuel : Nat) (l : List Char),
    (∀ c ∈ l, ¬ c = '(') → removeParens fuel l = l := by
  intro fuel
  induction fuel with
  | zero => intro l _; rfl
  | succ n ih =>
    intro l h
    cases l with
    | nil => rfl
    | cons c rest =>
      have hc : ¬ c = '(' := h c (by simp)
      simp [removeParens, hc, ih rest (fun d hd => h d (by simp [hd]))]

theorem removeParens_skip : ∀ (n : List Char) (k : Nat) (l2 : List Char),
    (∀ c ∈ n, ¬ c = '(') →
    removeParens (n.length + k) (n ++ l2) = n ++ removeParens k l2 := by
  intro n
  induction n with
  | nil => intro k l2 _; simp
  | cons a p ih =>
    intro k l2 h
    have ha : ¬ a = '(' := h a (by simp)
    have hfuel : (a :: p).length + k = (p.length + k) + 1 := by
      simp [Nat.add_right_comm]
    rw [hfuel, List.cons_append]
    simp [removeParens, ha, ih k l2 (fun d hd => h d (by simp [hd]))]

theorem mem_pstrip {c : Char} {l : List Char} (h : c ∈ pstrip l) : c ∈ l := by
  unfold pstrip at h
  rw [List.mem_reverse] at h
  have h2 := (List.dropWhile_sublist isSpaceChar).subset h
  rw [List.mem_reverse] at h2
  exact (List.dropWhile_sublist isSpaceChar).subset h2

theorem pstrip_append_space {n : List Char} (h : ∀ c ∈ n, isSpaceChar c = false) :
    pstrip (n ++ [' ']) = n := by
  unfold pstrip
  cases n with
  | nil => rfl
  | cons a t =>
    have ha : isSpaceChar a = false := h a (by simp)
    have ht : ∀ c ∈ t.reverse ++ [a], isSpaceChar c = false := by
      intro c hc
      rcases List.mem_append.mp hc with hc | hc
      · exact h c (by simp [List.mem_reverse.mp hc])
      · simp at hc
        subst hc
        exact ha
    rw [List.cons_append, List.dropWhile_cons, ha]
    simp only [Bool.false_eq_true, if_false]
    rw [show ((a :: (t ++ [' '])).reverse) = ' ' :: (t.reverse ++ [a]) from by simp]
    rw [List.dropWhile_cons]
    rw [show isSpaceChar ' ' = true from by decide]
    simp only [if_true]
    rw [dropWhile_all_false ht]
    simp

theorem pctToSpace_ne_paren {c : Char} (h : ¬ c = ')') : ¬ pctToSpace c = ')' := by
  unfold pctToSpace
  split
  · decide
  · exact h

theorem baseKey_mkDisplay (n q : List Char) (hn : n ≠ [])
    (hna : ∀ c ∈ n, c.isAlphanum = true) (hq : ∀ c ∈ q, ¬ c = ')') :
    baseKey (mkDisplay n q) = ingKey n := by
  have hnsp : ∀ c ∈ n, isSpaceChar c = false := fun c hc => alnum_not_space (hna c hc)
  have hpn : pstrip n = n := pstrip_all_nonspace hnsp
  have hnp : ∀ c ∈ n, ¬ c = '(' := fun c hc => alnum_ne '(' (by decide) (hna c hc)
  unfold mkDisplay
  dsimp only
  by_cases hqe : (pstrip q).isEmpty = true
  · rw [if_pos hqe, hpn]
    unfold baseKey ingKey
    rw [removeParens_id _ _ hnp, hpn]
  · rw [if_neg hqe, hpn]
    have hqs : ∀ c ∈ (pstrip q).map pctToSpace, ¬ c = ')' := by
      intro c hc
      obtain ⟨a, ha, rfl⟩ := List.mem_map.mp hc
      exact pctToSpace_ne_paren (hq a (mem_pstrip ha))
    unfold baseKey
    have hshape : n ++ (' ' :: '(' :: (pstrip q).map pctToSpace) ++ [')']
        = n ++ (' ' :: '(' :: ((pstrip q).map pctToSpace ++ [')'])) := by
      simp
    rw [hshape]
    have hlen : (n ++ (' ' :: '(' :: ((pstrip q).map pctToSpace ++ [')']))).length
        = n.length + (((pstrip q).map pctToSpace).length + 3) := by
      simp
    rw [hlen, removeParens_skip n _ _ hnp]
    have hqtw : ((pstrip q).map pctToSpace ++ [')']).takeWhile (fun d => !(d == ')'))
        = (pstrip q).map pctToSpace :=
      @takeWhile_all_append Char (fun d => !(d == ')'))
        ((pstrip q).map pctToSpace) ')' []
        (fun c hc => by simp [hqs c hc]) (by decide)
    have hrp : removeParens (((pstrip q).map pctToSpace).length + 3)
        (' ' :: '(' :: ((pstrip q).map pctToSpace ++ [')'])) = [' '] := by
      show removeParens ((((pstrip q).map pctToSpace).length + 2) + 1)
        (' ' :: '(' :: ((pstrip q).map pctToSpace ++ [')'])) = [' ']
      rw [show removeParens ((((pstrip q).map pctToSpace).length + 2) + 1)
          (' ' :: '(' :: ((pstrip q).map pctToSpace ++ [')']))
          = ' ' :: removeParens (((pstrip q).map pctToSpace).length + 2)
              ('(' :: ((pstrip q).map pctToSpace ++ [')'])) from by
        simp [removeParens]]
      rw [show removeParens (((pstrip q).map pctToSpace).length + 2)
          ('(' :: ((pstrip q).map pctToSpace ++ [')']))
          = removeParens (((pstrip q).map pctToSpace).length + 1) [] from by
        simp [removeParens, hqtw, List.drop_left]]
      rfl
    rw [hrp, pstrip_append_space hnsp]
    unfold ingKey
    rw [hpn]

/-- Counterexample for C3: on the body `@salt {1 tsp}` (a space before the
brace pair) the PDF parser registers `salt (1 tsp)` while the site parser,
whose name class excludes whitespace, registers nothing, so the two
deduplicated ingredient lists differ. -/
theorem c3_counterexample :
    ¬ pdfIngredientsOf (("@salt \x7b1 tsp\x7d").toList)
        = siteIngredientsOf (("@salt \x7b1 tsp\x7d").toList) := by decide

/-- Claim C3 (amended): the HTML site generator's and the LaTeX/PDF
generator's deduplicated ingredient display lists (the latter taken before
LaTeX escaping) agree on every body whose lines are in canonical annotation
form: each `@` immediately followed by a nonempty alphanumeric name and a
`{quantity}` whose quantity contains no `)`.  (As stated for every input
body the claim is false: see the counterexample.) -/
theorem c3_parsers_agree_canonical (content : List Char)
    (h : ∀ l ∈ bodyLines content, canonLine l.length l = true) :
    pdfIngredientsOf content = siteIngredientsOf content := by
  have hmc := matches_canon_lines (bodyLines content) h
  have hbk : ∀ m ∈ ingMatchesOfLines (bodyLines content),
      baseKey (mkDisplay m.1 m.2) = ingKey m.1 := by
    intro m hm
    obtain ⟨h1, h2, h3⟩ := hmc.2 m hm
    exact baseKey_mkDisplay m.1 m.2 h1 h2 h3
  unfold pdfIngredientsOf pdfIngredientsOfLines pdfParseLines
  rw [pdfParseAux_spec]
  dsimp only
  rw [foldl_insert_eq_dedupFirst _ [] [] rfl hbk]
  unfold siteIngredientsOf siteIngredientsOfLines
  rw [siteParseAux_spec, hmc.1]
  simp

/-- Witness for the amended C3: a concrete two-line canonical body on which
both parsers produce the same deduplicated list. -/
theorem c3_witness :
    pdfIngredientsOf (("Add @flour\x7b2%cups\x7d and @salt\x7b1 tsp\x7d\nthen @Salt\x7b2 tsp\x7d more").toList)
      = siteIngredientsOf (("Add @flour\x7b2%cups\x7d and @salt\x7b1 tsp\x7d\nthen @Salt\x7b2 tsp\x7d more").toList) :=
  c3_parsers_agree_canonical
    (("Add @flour\x7b2%cups\x7d and @salt\x7b1 tsp\x7d\nthen @Salt\x7b2 tsp\x7d more").toList)
    (by decide)
